import Mathlib

/-!
# Verification of the explainable binary-search-tree engine

A shallow embedding of the tree engine of the `tree-explorer` repository
(`src/stores/AbstractTree.tsx`, `src/stores/NaiveTree.tsx`,
`src/stores/RedBlackTree.tsx`) together with proofs about it.

Modelling conventions:

* `BinaryTreeNode` objects form a pointer structure in the source; here a
  subtree is the inductive `RBTree`.  A node with `value === null` (a
  sentinel / "null terminator") is `RBTree.nil`; sentinels are black and
  own no children, exactly as in the source constructor.
* The source algorithms navigate via `parent` back-pointers.  Those are
  embedded as a zipper: `Path` is the context of the node under focus,
  and `Path.plug` rebuilds the whole tree.  A node "is the root" exactly
  when its context is `Path.root` (its `parent` is `null`).
* Mutating methods become functions from trees (or a small store state)
  to trees.  Code paths on which the source dereferences a `null`
  pointer (a crash at runtime) return `none`.
* Machine numbers: values are `Int` (JavaScript numbers used as integers
  by the UI); the `size` field is `Int` as well, because the source can
  drive it below zero.
-/

set_option linter.unusedVariables false

namespace TreeExplorer

/-- Node colours; the source stores the strings `'red'` / `'black'`. -/
inductive Colour where
  | red : Colour
  | black : Colour
deriving DecidableEq, Repr

/-- A binary-search-tree node (`BinaryTreeNode` in `AbstractTree.tsx`).
`nil` is a sentinel node (`value === null`, colour black, no children). -/
inductive RBTree where
  | nil : RBTree
  | node (colour : Colour) (leftChild : RBTree) (value : Int) (rightChild : RBTree) : RBTree
deriving DecidableEq, Repr

namespace RBTree

/-- The colour of a node; sentinels are always black (the source
constructor gives `value === null` nodes colour `'black'`). -/
def topColour : RBTree → Colour
  | .nil => .black
  | .node c _ _ _ => c

/-- `node.colour = c` on a non-sentinel node.  (The deletion helper
`makeNull` is the only place the source writes a sentinel's colour, and
it writes black, which is what `nil` already denotes.) -/
def paint (c : Colour) : RBTree → RBTree
  | .nil => .nil
  | .node _ l v r => .node c l v r

/-- The in-order value sequence of the non-sentinel nodes. -/
def inorder : RBTree → List Int
  | .nil => []
  | .node _ l v r => inorder l ++ v :: inorder r

/-- Whether some non-sentinel node of the tree holds value `x`. -/
def memB (x : Int) : RBTree → Bool
  | .nil => false
  | .node _ l v r => x == v || memB x l || memB x r

/-- Every value in the tree is strictly below the bound. -/
def allLtB : RBTree → Int → Bool
  | .nil, _ => true
  | .node _ l v r, b => decide (v < b) && allLtB l b && allLtB r b

/-- Every value in the tree is strictly above the bound. -/
def allGtB : RBTree → Int → Bool
  | .nil, _ => true
  | .node _ l v r, b => decide (b < v) && allGtB l b && allGtB r b

/-- Binary-search-tree ordering (the *BST order* invariant of §3 of the
specification): left values smaller, right values greater, recursively. -/
def isBST : RBTree → Bool
  | .nil => true
  | .node _ l v r => allLtB l v && allGtB r v && isBST l && isBST r

/-- How many black levels a node contributes to paths through it. -/
def Colour.bh : Colour → Nat
  | .red => 0
  | .black => 1

/-- The black-height of the tree, provided every root-to-sentinel path
passes the same number of black nodes; `none` when the *path rule* is
violated. -/
def blackHeight? : RBTree → Option Nat
  | .nil => some 0
  | .node c l _ r =>
    match blackHeight? l, blackHeight? r with
    | some hl, some hr => if hl = hr then some (hl + Colour.bh c) else none
    | _, _ => none

/-- The *red rule*: a red node never has a red child. -/
def noRedRed : RBTree → Bool
  | .nil => true
  | .node c l _ r =>
    (match c with
     | .red => topColour l == .black && topColour r == .black
     | .black => true) && noRedRed l && noRedRed r

/-- All three red-black invariants of `RedBlackTree.rebalance`'s doc
comment: black root, red rule, path rule. -/
def isRedBlack (t : RBTree) : Prop :=
  topColour t = .black ∧ noRedRed t = true ∧ (blackHeight? t).isSome

/-- `BinaryTreeNode.minChild` (`AbstractTree.tsx` lines 187-195): walk
`leftChild` while it is a non-sentinel; a sentinel has no children, so
the loop does not run and the sentinel itself is returned. -/
def minChild : RBTree → RBTree
  | .nil => .nil
  | .node c .nil v r => .node c .nil v r
  | .node _ (.node lc ll lv lr) _ _ => minChild (.node lc ll lv lr)

/-- `m` is reachable from `t` by repeatedly following `leftChild`. -/
inductive LeftReach : RBTree → RBTree → Prop where
  | refl (t : RBTree) : LeftReach t t
  | step {c : Colour} {l : RBTree} {v : Int} {r m : RBTree} :
      LeftReach l m → LeftReach (.node c l v r) m

end RBTree

open RBTree

/-- The context of a node under focus: the chain of ancestors recorded
with the side on which the focus hangs.  This is the embedding of the
source's `parent` back-pointers. -/
inductive Path where
  | root : Path
  | inL (c : Colour) (v : Int) (sib : RBTree) (p : Path) : Path
  | inR (c : Colour) (sib : RBTree) (v : Int) (p : Path) : Path
deriving DecidableEq, Repr

namespace Path

/-- Rebuild the whole tree from a context and the focused subtree. -/
def plug : Path → RBTree → RBTree
  | .root, f => f
  | .inL c v sib p, f => plug p (.node c f v sib)
  | .inR c sib v p, f => plug p (.node c sib v f)

/-- Number of ancestors recorded in the context. -/
def depth : Path → Nat
  | .root => 0
  | .inL _ _ _ p => depth p + 1
  | .inR _ _ _ p => depth p + 1

/-- In-order values of the context strictly to the left of the hole. -/
def ctxL : Path → List Int
  | .root => []
  | .inL _ _ _ p => ctxL p
  | .inR _ sib v p => ctxL p ++ sib.inorder ++ [v]

/-- In-order values of the context strictly to the right of the hole. -/
def ctxR : Path → List Int
  | .root => []
  | .inL _ v sib p => (v :: sib.inorder) ++ ctxR p
  | .inR _ _ _ p => ctxR p

/-- Colour of the hole's parent (`black` when the hole is the root, in
which case there is no parent at all). -/
def parentColour : Path → Colour
  | .root => .black
  | .inL c _ _ _ => c
  | .inR c _ _ _ => c

/-- Colour of the root of `plug p f`, given the colour of `f`'s root. -/
def outColour : Path → Colour → Colour
  | .root, fc => fc
  | .inL c _ _ p, _ => outColour p c
  | .inR c _ _ p, _ => outColour p c

/-- Black-height bookkeeping of a context: if the focus has black-height
`h`, `pathBal p h = some H` says every sibling subtree hanging off the
context is balanced and agrees with the focus, and the rebuilt tree has
black-height `H`. -/
def pathBal : Path → Nat → Option Nat
  | .root, h => some h
  | .inL c _ sib p, h =>
    match blackHeight? sib with
    | some hs => if hs = h then pathBal p (h + Colour.bh c) else none
    | none => none
  | .inR c sib _ p, h =>
    match blackHeight? sib with
    | some hs => if hs = h then pathBal p (h + Colour.bh c) else none
    | none => none

/-- Red-rule bookkeeping of a context: sibling subtrees obey the red
rule, and every red ancestor has a black parent and a black sibling
subtree.  (The edge between the hole's parent and the focus itself is
accounted for separately.) -/
def pathOkRR : Path → Bool
  | .root => true
  | .inL c _ sib p =>
    noRedRed sib && pathOkRR p &&
      (match c with
       | .black => true
       | .red => topColour sib == .black && parentColour p == .black)
  | .inR c sib _ p =>
    noRedRed sib && pathOkRR p &&
      (match c with
       | .black => true
       | .red => topColour sib == .black && parentColour p == .black)

/-- Either the focus is the root, or the outermost recorded ancestor
(the tree's root) is black. -/
def RootOK (p : Path) : Prop := p = .root ∨ ∀ fc, outColour p fc = .black

end Path

namespace AbstractTree

/-- `AbstractTree.addRecursive` (lines 329-355): descend comparing the
new value, and return the context of the sentinel to be replaced by the
new node.  When the value is already present neither branch is taken and
nothing is inserted; the red-black caller then dereferences the fresh
node's `null` parent, so that outcome is `none`. -/
def addRecursive (x : Int) : RBTree → Path → Option Path
  | .nil, p => some p
  | .node c l v r, p =>
    if x < v then addRecursive x l (.inL c v r p)
    else if v < x then addRecursive x r (.inR c l v p)
    else none

/-- The result of `addRecursive` as a plain tree transformation: the
prebuilt node `g` replaces the sentinel the descent for `x` reaches;
a duplicate leaves the tree unchanged. -/
def structuralInsert (g : RBTree) (x : Int) : RBTree → RBTree
  | .nil => g
  | .node c l v r =>
    if x < v then .node c (structuralInsert g x l) v r
    else if v < x then .node c l v (structuralInsert g x r)
    else .node c l v r

end AbstractTree

namespace RedBlackTree

/-- `RedBlackTree.rotateLeft` (lines 178-226) as a subtree
transformation: the right child's left child is promoted into the
rotated node's right slot and the rotated node is re-parented under its
old right child; the outer link (grandparent's child pointer, or the
tree's root pointer) is the zipper context of the rotated node and is
untouched.  The source corrupts a sentinel if the right child is one, so
that case is `none`. -/
def rotateLeft : RBTree → Option RBTree
  | .node c l v (.node rc rl rv rr) => some (.node rc (.node c l v rl) rv rr)
  | _ => none

/-- `RedBlackTree.rotateRight` (lines 238-286), mirror image of
`rotateLeft`. -/
def rotateRight : RBTree → Option RBTree
  | .node c (.node lc ll lv lr) v r => some (.node lc ll lv (.node c lr v r))
  | _ => none

/-- Which child of its parent the focus is. -/
inductive Side where
  | L : Side
  | R : Side
deriving DecidableEq, Repr

/-- `RedBlackTree.rebalanceDifferingAntecedents` (lines 92-166), acting
on the grandparent's subtree.  Arguments: the focused node's subtree
`f`, its side below its parent, the parent's colour/value/sibling
subtree, the parent's side below the grandparent, and the grandparent's
colour/value/sibling (ommer) subtree.  When the node is "inside" the
grandparent (`doRotateLeft` / `doRotateRight` in the source) the parent
is rotated first and the focus moves to its former child; then the
grandparent is rotated so the (possibly new) parent takes its place, the
node at the top is coloured black and the displaced grandparent red. -/
def rebalanceDifferingAntecedents (f : RBTree) :
    Side → Colour → Int → RBTree → Side → Colour → Int → RBTree → Option RBTree
  | .L, pc, pv, psib, .L, gc, gv, gsib =>
    match rotateRight (.node gc (.node pc f pv psib) gv gsib) with
    | some (.node _ l v r) => some (.node .black l v (paint .red r))
    | _ => none
  | .R, pc, pv, psib, .R, gc, gv, gsib =>
    match rotateLeft (.node gc gsib gv (.node pc psib pv f)) with
    | some (.node _ l v r) => some (.node .black (paint .red l) v r)
    | _ => none
  | .R, pc, pv, psib, .L, gc, gv, gsib =>
    match rotateLeft (.node pc psib pv f) with
    | none => none
    | some p2 =>
      match rotateRight (.node gc p2 gv gsib) with
      | some (.node _ l v r) => some (.node .black l v (paint .red r))
      | _ => none
  | .L, pc, pv, psib, .R, gc, gv, gsib =>
    match rotateRight (.node pc f pv psib) with
    | none => none
    | some p2 =>
      match rotateLeft (.node gc gsib gv p2) with
      | some (.node _ l v r) => some (.node .black (paint .red l) v r)
      | _ => none

/-- `RedBlackTree.rebalance` (lines 37-90), the insertion fixup.  Cases
in source order: the focus is the root (paint it black); the parent is
black (no modification); the ommer exists and is red (recolour parent
and ommer black and the grandparent red, then recurse from the
grandparent); otherwise rotate via
`rebalanceDifferingAntecedents`.  A red parent that is itself the root
sends the source into `rotateLeft(null)` / `rotateRight(null)` — a
`TypeError` — hence `none`. -/
def rebalance : RBTree → Path → Option RBTree
  | f, .root => some (paint .black f)
  | f, .inL pc pv psib pp =>
    match pc with
    | .black => some (Path.plug pp (.node .black f pv psib))
    | .red =>
      match pp with
      | .root => none
      | .inL gc gv gsib gp =>
        match topColour gsib with
        | .red => rebalance (.node .red (.node .black f pv psib) gv (paint .black gsib)) gp
        | .black => (rebalanceDifferingAntecedents f .L .red pv psib .L gc gv gsib).map (Path.plug gp)
      | .inR gc gsib gv gp =>
        match topColour gsib with
        | .red => rebalance (.node .red (paint .black gsib) gv (.node .black f pv psib)) gp
        | .black => (rebalanceDifferingAntecedents f .L .red pv psib .R gc gv gsib).map (Path.plug gp)
  | f, .inR pc psib pv pp =>
    match pc with
    | .black => some (Path.plug pp (.node .black psib pv f))
    | .red =>
      match pp with
      | .root => none
      | .inL gc gv gsib gp =>
        match topColour gsib with
        | .red => rebalance (.node .red (.node .black psib pv f) gv (paint .black gsib)) gp
        | .black => (rebalanceDifferingAntecedents f .R .red pv psib .L gc gv gsib).map (Path.plug gp)
      | .inR gc gsib gv gp =>
        match topColour gsib with
        | .red => rebalance (.node .red (paint .black gsib) gv (.node .black psib pv f)) gp
        | .black => (rebalanceDifferingAntecedents f .R .red pv psib .R gc gv gsib).map (Path.plug gp)

/-- The node `RedBlackTree.addItem` creates:
`new BinaryTreeNode(item, this.RED)`. -/
def newRedNode (x : Int) : RBTree := .node .red .nil x .nil

/-- `RedBlackTree.addItem` (lines 12-26): structural insertion of a red
node via the shared naive algorithm, then the invariant-restoring
fixup starting from the inserted node. -/
def addItem (x : Int) (t : RBTree) : Option RBTree :=
  match AbstractTree.addRecursive x t .root with
  | none => none
  | some p => rebalance (newRedNode x) p

/-- `RedBlackTree.findRemovedNode` (lines 309-331) reduced to whether
the BST descent finds the value (`null` result ↔ `false`). -/
def findRemovedNode (x : Int) : RBTree → Bool
  | .nil => false
  | .node _ l v r =>
    if x < v then findRemovedNode x l
    else if v < x then findRemovedNode x r
    else true

/-- The two-non-sentinel-children step of `RedBlackTree.spliceNode`
(lines 344-367): find the minimum node of the right subtree, promote
*its value only* into the target node (`node.value = minChild.value`;
the colour field is not written), and re-target the deletion onto that
minimum node (`node = minChild`).  Returns the updated subtree of the
target together with the node now marked for deletion; `none` when the
target does not have two non-sentinel children (the step is skipped). -/
def spliceNodePromote : RBTree → Option (RBTree × RBTree)
  | .node c (.node lc ll lv lr) v (.node rc rl rv rr) =>
    match minChild (.node rc rl rv rr) with
    | .node mc ml mv mr =>
      some (.node c (.node lc ll lv lr) mv (.node rc rl rv rr), .node mc ml mv mr)
    | .nil => none
  | _ => none

end RedBlackTree

/-- The observable aggregate state the claims about `size` refer to:
the owned root and the `size` counter (an `Int`: the source decrements
it without any guard and can drive it negative). -/
structure TreeState where
  root : RBTree
  size : Int
deriving DecidableEq, Repr

namespace RedBlackTree

/-- `RedBlackTree.removeItem` (lines 288-298).  When `findRemovedNode`
returns `null` the method returns before `spliceNode`, `size--` and
`numOperations++` run, so the state is untouched.  The present-value
branch delegates to `spliceNode`'s full deletion (its double-black
rebalancing is outside the claims below about this method) and is left
as `none`. -/
def removeItem (x : Int) (s : TreeState) : Option TreeState :=
  if findRemovedNode x s.root then none else some s

end RedBlackTree

namespace NaiveTree

/-- The structural part of `NaiveTree.addItem`: the shared naive
insertion (`addItemNaive(item, 'black', true)`) creates a black node for
the value and splices it in at the sentinel the descent reaches. -/
def insertTree (x : Int) (t : RBTree) : RBTree :=
  match AbstractTree.addRecursive x t .root with
  | some p => p.plug (.node .black .nil x .nil)
  | none => t

/-- `NaiveTree.addItem` at the store level: `addNodeNaive` reassigns the
root and increments `size` unconditionally (also on a duplicate, which
inserts nothing). -/
def addItem (x : Int) (s : TreeState) : TreeState :=
  { root := insertTree x s.root, size := s.size + 1 }

/-- `NaiveTree.removeRecursive` (lines 22-123): BST descent; a sentinel
is returned unchanged; a found leaf becomes a sentinel; a node with one
sentinel child is replaced by the other child; with two non-sentinel
children the minimum value of the right subtree is promoted into the
node and then removed from the right subtree.  (The inner `.nil` match
arm of the two-children case is unreachable: `minChild` of a
non-sentinel tree is a non-sentinel node.) -/
def removeRecursive (x : Int) : RBTree → RBTree
  | .nil => .nil
  | .node c l v r =>
    if x < v then .node c (removeRecursive x l) v r
    else if v < x then .node c l v (removeRecursive x r)
    else
      match l, r with
      | .nil, .nil => .nil
      | .nil, .node rc rl rv rr => .node rc rl rv rr
      | .node lc ll lv lr, .nil => .node lc ll lv lr
      | .node lc ll lv lr, .node rc rl rv rr =>
        match minChild (.node rc rl rv rr) with
        | .node _ _ mv _ =>
          .node c (.node lc ll lv lr) mv (removeRecursive mv (.node rc rl rv rr))
        | .nil => .node c (.node lc ll lv lr) x (.node rc rl rv rr)

/-- `NaiveTree.removeItem` (lines 13-19): reassign the root to the
recursion's result and decrement `size` — unconditionally, whether or
not the value was present. -/
def removeItem (x : Int) (s : TreeState) : TreeState :=
  { root := removeRecursive x s.root, size := s.size - 1 }

end NaiveTree

/-- An insertion or removal request against a tree store. -/
inductive TreeOp where
  | ins (x : Int) : TreeOp
  | del (x : Int) : TreeOp
deriving DecidableEq, Repr

namespace NaiveTree

/-- Run a sequence of operations against a `NaiveTree` store. -/
def runOps (s : TreeState) : List TreeOp → TreeState
  | [] => s
  | .ins x :: ops => runOps (addItem x s) ops
  | .del x :: ops => runOps (removeItem x s) ops

/-- Every insertion is of an absent value and every removal of a present
value (the preconditions stated on `addItem` / `removeItem`). -/
def ValidOps : RBTree → List TreeOp → Prop
  | _, [] => True
  | t, .ins x :: ops => memB x t = false ∧ ValidOps (insertTree x t) ops
  | t, .del x :: ops => memB x t = true ∧ ValidOps (removeRecursive x t) ops

end NaiveTree

/-- Build a tree by `NaiveTree` insertions. -/
def buildNaive : RBTree → List Int → RBTree
  | t, [] => t
  | t, x :: xs => buildNaive (NaiveTree.insertTree x t) xs

/-- Build a tree by `RedBlackTree.addItem` insertions. -/
def buildRB : RBTree → List Int → Option RBTree
  | t, [] => some t
  | t, x :: xs =>
    match RedBlackTree.addItem x t with
    | none => none
    | some t₂ => buildRB t₂ xs

/-- One elementary action of a traversal generator: a value handed to
the consumer (`yield node.value`) or an `explainStep` round trip. -/
inductive TraverseStep where
  | yieldValue (v : Int) : TraverseStep
  | explain (title : String) (terminal : Bool) : TraverseStep
deriving DecidableEq, Repr

namespace AbstractTree

/-- `navigateInOrder` with `explainTraverseLeft` / `explainTraverseCurrent`
/ `explainTraverseRight` (lines 390-465): descend-left step only when the
left child is a non-sentinel, then yield the current value followed by
its explanation step, then the symmetric right part. -/
def navigateInOrder : RBTree → List TraverseStep
  | .nil => []
  | .node _ l v r =>
    (match l with
     | .nil => []
     | .node lc ll lv lr => .explain "Traverse left child" false :: navigateInOrder (.node lc ll lv lr)) ++
    [.yieldValue v, .explain "Add current node" false] ++
    (match r with
     | .nil => []
     | .node rc rl rv rr => .explain "Traverse right child" false :: navigateInOrder (.node rc rl rv rr))

/-- `navigatePreOrder` (lines 370-375): current, then left, then right. -/
def navigatePreOrder : RBTree → List TraverseStep
  | .nil => []
  | .node _ l v r =>
    [.yieldValue v, .explain "Add current node" false] ++
    (match l with
     | .nil => []
     | .node lc ll lv lr => .explain "Traverse left child" false :: navigatePreOrder (.node lc ll lv lr)) ++
    (match r with
     | .nil => []
     | .node rc rl rv rr => .explain "Traverse right child" false :: navigatePreOrder (.node rc rl rv rr))

/-- `navigatePostOrder` (lines 410-415): left, then right, then current. -/
def navigatePostOrder : RBTree → List TraverseStep
  | .nil => []
  | .node _ l v r =>
    (match l with
     | .nil => []
     | .node lc ll lv lr => .explain "Traverse left child" false :: navigatePostOrder (.node lc ll lv lr)) ++
    (match r with
     | .nil => []
     | .node rc rl rv rr => .explain "Traverse right child" false :: navigatePostOrder (.node rc rl rv rr)) ++
    [.yieldValue v, .explain "Add current node" false]

/-- `traverseInOrder` (lines 380-388): navigate only from a non-sentinel
root, then always emit the terminal "Traversal complete" step. -/
def traverseInOrder (t : RBTree) : List TraverseStep :=
  (match t with
   | .nil => []
   | .node c l v r => navigateInOrder (.node c l v r)) ++ [.explain "Traversal complete" true]

/-- `traversePreOrder` (lines 360-368). -/
def traversePreOrder (t : RBTree) : List TraverseStep :=
  (match t with
   | .nil => []
   | .node c l v r => navigatePreOrder (.node c l v r)) ++ [.explain "Traversal complete" true]

/-- `traversePostOrder` (lines 400-408). -/
def traversePostOrder (t : RBTree) : List TraverseStep :=
  (match t with
   | .nil => []
   | .node c l v r => navigatePostOrder (.node c l v r)) ++ [.explain "Traversal complete" true]

/-- The values a traversal hands to its consumer, in order. -/
def yields (l : List TraverseStep) : List Int :=
  l.filterMap fun s =>
    match s with
    | .yieldValue v => some v
    | .explain _ _ => none

end AbstractTree

/-- The store state `explainStep` touches: the owned tree and `size`
(which it never writes), the `numOperations` counter, the list of
highlighted nodes and the per-node highlight colour render property.
Nodes are addressed by an abstract identifier. -/
structure StoreState where
  root : RBTree
  size : Int
  numOperations : Int
  highlightedNodes : List Nat
  highlightColour : Nat → Option String

namespace AbstractTree

/-- `AbstractTree.explainStep` (lines 266-275): increment
`numOperations`, hand title/message/terminal to the external explanation
channel, and after it resolves clear `highlightColour` on every node in
`highlightedNodes` and empty that list.  Title, message and terminal
flag are only forwarded, never inspected. -/
def explainStep (title : String) (message : String) (terminal : Bool)
    (s : StoreState) : StoreState :=
  { s with
    numOperations := s.numOperations + 1
    highlightColour := fun n => if n ∈ s.highlightedNodes then none else s.highlightColour n
    highlightedNodes := [] }

/-- The store effect of one traversal action: yielded values have no
effect on the store; each explanation step runs `explainStep`. -/
def stepEffect : TraverseStep → StoreState → StoreState
  | .yieldValue _, s => s
  | .explain title terminal, s => explainStep title "" terminal s

/-- Run a prefix of a traversal's actions over the store. -/
def runSteps (l : List TraverseStep) (s : StoreState) : StoreState :=
  l.foldl (fun s₂ a => stepEffect a s₂) s

end AbstractTree

/-! ## The double-black Case 2 step ordering (`rebalanceRotateRedSibling`)

`RedBlackTree.rebalanceRotateRedSibling` (lines 465-511) invokes
`this.rotateLeft(parent)` / `this.rotateRight(parent)` *without*
`await` — the only rotation call sites in the file that do not await —
and then proceeds to its next `explainStep` and to the recolouring.  The
model below replays the JavaScript microtask scheduling of that method
under the automatic resumption policy (every explanation round trip
resolves immediately, in FIFO creation order).  A coroutine is its list
of segments between `explainStep` suspension points; a segment is a list
of atomic actions (named mutations, or launching the un-awaited rotation
coroutine). -/

/-- The observable events of the Case 2 body and of the rotation it
invokes. -/
inductive DBEvent where
  | promoteGrandchild : DBEvent
  | fixOuterLink : DBEvent
  | recolourParentRed : DBEvent
  | recolourSiblingBlack : DBEvent
  | rerunFromCaseOne : DBEvent
deriving DecidableEq, Repr

/-- An atomic action within a segment: emit an event, or start an async
call whose returned promise is discarded (fire-and-forget). -/
inductive AsyncAct where
  | emit (e : DBEvent) : AsyncAct
  | fireAndForget (segs : List (List DBEvent)) : AsyncAct
deriving Repr

/-- Turn plain event segments into action segments. -/
def liftSegs (segs : List (List DBEvent)) : List (List AsyncAct) :=
  segs.map (List.map AsyncAct.emit)

/-- Execute one segment synchronously: collect its events; a
fire-and-forget call runs the callee's first segment inline (an async
function body runs up to its first suspension before control returns)
and schedules the callee's remaining segments as a microtask. -/
def execSeg : List AsyncAct → List DBEvent × List (List (List AsyncAct))
  | [] => ([], [])
  | .emit e :: rest =>
    match execSeg rest with
    | (evs, sp) => (e :: evs, sp)
  | .fireAndForget segs :: rest =>
    match execSeg rest with
    | (evs, sp) => (segs.headD [] ++ evs, liftSegs (segs.drop 1) :: sp)

/-- FIFO microtask loop: run the front coroutine's next segment; newly
scheduled continuations (from a fire-and-forget inside the segment, then
the coroutine's own next suspension) go to the back of the queue. -/
def microtaskRun : Nat → List (List (List AsyncAct)) → List DBEvent
  | 0, _ => []
  | _ + 1, [] => []
  | fuel + 1, [] :: q => microtaskRun fuel q
  | fuel + 1, (seg :: rest) :: q =>
    match execSeg seg with
    | (evs, spawned) => evs ++ microtaskRun fuel (q ++ spawned ++ [rest])

/-- `rotateLeft` / `rotateRight` as a coroutine (lines 178-286): no
mutation before the first explanation step; then the child-promotion
mutation block (`node.rightChild = oldRight.leftChild` …); then, after
the second step, the outer-link fix-up block (the grandparent's child
pointer or the root pointer, and the promoted node's parent); then the
terminal "Rotation complete" step. -/
def rotationSegs : List (List DBEvent) :=
  [[], [.promoteGrandchild], [.fixOuterLink], []]

/-- The Case 2 body of `rebalanceRotateRedSibling` once its guard holds:
the "Rotate about parent" step; the un-awaited rotation call followed by
the "Recolour rotated nodes" step; then `parent.colour = RED`,
`sibling.colour = BLACK` and the awaited re-run of the rebalancing from
Case 1. -/
def caseTwoBody : List (List AsyncAct) :=
  [ []
  , [.fireAndForget rotationSegs]
  , [.emit .recolourParentRed, .emit .recolourSiblingBlack, .emit .rerunFromCaseOne] ]

/-- The event order the code actually produces. -/
def caseTwoTrace : List DBEvent := microtaskRun 12 [caseTwoBody]

/-- The event order required by the specification's §5 ordering
guarantee (the rotation — all of its steps and mutations — completes
before the recolouring and the re-run). -/
def specifiedCaseTwoTrace : List DBEvent :=
  [.promoteGrandchild, .fixOuterLink, .recolourParentRed, .recolourSiblingBlack, .rerunFromCaseOne]

namespace RedBlackTree

/-- The guard of `rebalanceRotateRedSibling` (lines 468-470) on the
focused node's context: parent black, sibling red, both of the sibling's
children black.  (A red sibling is never a sentinel, so its children
exist.) -/
def rebalanceRotateRedSiblingGuard : Path → Bool
  | .root => false
  | .inL pc _ sib _ =>
    pc == .black && topColour sib == .red &&
      (match sib with
       | .node _ sl _ sr => topColour sl == .black && topColour sr == .black
       | .nil => false)
  | .inR pc sib _ _ =>
    pc == .black && topColour sib == .red &&
      (match sib with
       | .node _ sl _ sr => topColour sl == .black && topColour sr == .black
       | .nil => false)

end RedBlackTree

/-- The conclusion of the insertion-fixup correctness argument for focus
`f` under context `p`: the fixup completes, yields a black-rooted tree
obeying the red rule and the path rule, and preserves the in-order value
sequence of the tree it started from. -/
def RebalanceGoal (f : RBTree) (p : Path) : Prop :=
  ∃ t₂, RedBlackTree.rebalance f p = some t₂ ∧ RBTree.topColour t₂ = .black ∧
    RBTree.noRedRed t₂ = true ∧ (RBTree.blackHeight? t₂).isSome ∧
    RBTree.inorder t₂ = p.ctxL ++ RBTree.inorder f ++ p.ctxR

end TreeExplorer

/-! ## Basic lemmas about the tree model -/

namespace TreeExplorer

open RBTree AbstractTree

theorem sorted_lt_append {l₁ l₂ : List Int} :
    (l₁ ++ l₂).Sorted (· < ·) ↔
      l₁.Sorted (· < ·) ∧ l₂.Sorted (· < ·) ∧ ∀ a ∈ l₁, ∀ b ∈ l₂, a < b :=
  List.pairwise_append

theorem memB_iff {x : Int} : ∀ {t : RBTree}, memB x t = true ↔ x ∈ inorder t := by
  intro t
  induction t with
  | nil => simp [memB, inorder]
  | node c l v r ihl ihr =>
    simp only [memB, inorder, Bool.or_eq_true, beq_iff_eq, ihl, ihr,
      List.mem_append, List.mem_cons]
    tauto

theorem allLtB_iff {b : Int} : ∀ {t : RBTree}, allLtB t b = true ↔ ∀ y ∈ inorder t, y < b := by
  intro t
  induction t with
  | nil => simp [allLtB, inorder]
  | node c l v r ihl ihr =>
    simp only [allLtB, inorder, Bool.and_eq_true, decide_eq_true_eq, ihl, ihr,
      List.mem_append, List.mem_cons]
    constructor
    · rintro ⟨⟨hv, hl⟩, hr⟩ y hy
      rcases hy with h | h | h
      · exact hl y h
      · exact h ▸ hv
      · exact hr y h
    · intro h
      exact ⟨⟨h v (Or.inr (Or.inl rfl)), fun y hy => h y (Or.inl hy)⟩,
        fun y hy => h y (Or.inr (Or.inr hy))⟩

theorem allGtB_iff {b : Int} : ∀ {t : RBTree}, allGtB t b = true ↔ ∀ y ∈ inorder t, b < y := by
  intro t
  induction t with
  | nil => simp [allGtB, inorder]
  | node c l v r ihl ihr =>
    simp only [allGtB, inorder, Bool.and_eq_true, decide_eq_true_eq, ihl, ihr,
      List.mem_append, List.mem_cons]
    constructor
    · rintro ⟨⟨hv, hl⟩, hr⟩ y hy
      rcases hy with h | h | h
      · exact hl y h
      · exact h ▸ hv
      · exact hr y h
    · intro h
      exact ⟨⟨h v (Or.inr (Or.inl rfl)), fun y hy => h y (Or.inl hy)⟩,
        fun y hy => h y (Or.inr (Or.inr hy))⟩

theorem sorted_inorder_iff_isBST : ∀ {t : RBTree},
    (inorder t).Sorted (· < ·) ↔ isBST t = true := by
  intro t
  induction t with
  | nil => simp [inorder, isBST]
  | node c l v r ihl ihr =>
    rw [show inorder (.node c l v r) = inorder l ++ v :: inorder r from rfl,
      sorted_lt_append, List.sorted_cons]
    simp only [isBST, Bool.and_eq_true]
    constructor
    · rintro ⟨hl, ⟨hvr, hr⟩, hcross⟩
      refine ⟨⟨⟨?_, ?_⟩, ihl.mp hl⟩, ihr.mp hr⟩
      · exact allLtB_iff.mpr fun y hy => hcross y hy v (by simp)
      · exact allGtB_iff.mpr hvr
    · rintro ⟨⟨⟨hlt, hgt⟩, hl⟩, hr⟩
      refine ⟨ihl.mpr hl, ⟨allGtB_iff.mp hgt, ihr.mpr hr⟩, ?_⟩
      intro y hy z hz
      have hyv : y < v := allLtB_iff.mp hlt y hy
      rcases List.mem_cons.mp hz with h | h
      · exact h ▸ hyv
      · exact hyv.trans (allGtB_iff.mp hgt z h)

theorem minChild_spec : ∀ {t : RBTree}, t ≠ .nil →
    ∃ c v r rest, minChild t = .node c .nil v r ∧ LeftReach t (minChild t) ∧
      inorder t = v :: rest := by
  intro t
  induction t with
  | nil => intro h; exact absurd rfl h
  | node c l v r ihl ihr =>
    intro _
    match l with
    | .nil =>
      exact ⟨c, v, r, inorder r, rfl, .refl _, by simp [inorder]⟩
    | .node lc ll lv lr =>
      obtain ⟨c₂, v₂, r₂, rest₂, hmc, hreach, hino⟩ := ihl (by simp)
      refine ⟨c₂, v₂, r₂, rest₂ ++ v :: inorder r, ?_, ?_, ?_⟩
      · simpa [minChild] using hmc
      · exact .step (hmc ▸ hreach)
      · rw [show inorder (.node c (.node lc ll lv lr) v r)
              = inorder (.node lc ll lv lr) ++ v :: inorder r from rfl, hino]
        rfl

theorem minChild_mem : ∀ {t : RBTree} {c : Colour} {v : Int} {r : RBTree},
    t ≠ .nil → minChild t = .node c .nil v r → memB v t = true := by
  intro t c v r ht hmc
  obtain ⟨c₂, v₂, r₂, rest₂, hmc₂, _, hino⟩ := minChild_spec ht
  rw [hmc₂] at hmc
  cases hmc
  exact memB_iff.mpr (by simp [hino])

end TreeExplorer

/-! ## Claim theorems: the simple claims -/

namespace TreeExplorer

open RBTree AbstractTree

/-- **C10**: `minChild` is total at the node interface: on a sentinel it
returns the sentinel itself, and on a non-sentinel node it returns a
non-sentinel descendant reached by following left children whose left
child is a sentinel (the leftmost non-sentinel descendant). -/
theorem minChild_total :
    (minChild .nil = .nil) ∧
    ∀ t : RBTree, t ≠ .nil →
      minChild t ≠ .nil ∧ LeftReach t (minChild t) ∧
        ∃ c v r, minChild t = .node c .nil v r := by
  refine ⟨rfl, fun t ht => ?_⟩
  obtain ⟨c, v, r, rest, hmc, hreach, _⟩ := minChild_spec ht
  exact ⟨by simp [hmc], hreach, c, v, r, hmc⟩

/-- Witness for **C10** at the tree `node black (node red nil 1 nil) 2 nil`. -/
theorem minChild_total_witness :
    minChild (.node .black (.node .red .nil 1 .nil) 2 .nil) ≠ .nil ∧
    LeftReach (.node .black (.node .red .nil 1 .nil) 2 .nil)
      (minChild (.node .black (.node .red .nil 1 .nil) 2 .nil)) ∧
    ∃ c v r, minChild (.node .black (.node .red .nil 1 .nil) 2 .nil) = .node c .nil v r :=
  minChild_total.2 (.node .black (.node .red .nil 1 .nil) 2 .nil) (by simp)

/-- **C9**: every `explainStep` call increments the operation counter by
exactly one, clears the highlight colour of every node in
`highlightedNodes`, and leaves `highlightedNodes` empty — for every
title, message body and terminal flag. -/
theorem explainStep_spec (title message : String) (terminal : Bool) (s : StoreState) :
    (AbstractTree.explainStep title message terminal s).numOperations = s.numOperations + 1 ∧
    (AbstractTree.explainStep title message terminal s).highlightedNodes = [] ∧
    ∀ n ∈ s.highlightedNodes,
      (AbstractTree.explainStep title message terminal s).highlightColour n = none := by
  refine ⟨rfl, rfl, fun n hn => ?_⟩
  simp [AbstractTree.explainStep, hn]

/-- Witness for **C9** at a concrete store with one highlighted node. -/
theorem explainStep_spec_witness :
    (AbstractTree.explainStep "t" "m" false
        ⟨.nil, 0, 41, [7], fun _ => some "green"⟩).numOperations = 42 ∧
    (AbstractTree.explainStep "t" "m" false
        ⟨.nil, 0, 41, [7], fun _ => some "green"⟩).highlightedNodes = [] ∧
    ∀ n ∈ [7],
      (AbstractTree.explainStep "t" "m" false
        ⟨.nil, 0, 41, [7], fun _ => some "green"⟩).highlightColour n = none :=
  explainStep_spec "t" "m" false ⟨.nil, 0, 41, [7], fun _ => some "green"⟩

theorem runSteps_root_size : ∀ (l : List TraverseStep) (s : StoreState),
    (runSteps l s).root = s.root ∧ (runSteps l s).size = s.size := by
  intro l
  induction l with
  | nil => intro s; exact ⟨rfl, rfl⟩
  | cons a l ih =>
    intro s
    have h := ih (stepEffect a s)
    have hroot : (stepEffect a s).root = s.root := by
      cases a <;> rfl
    have hsize : (stepEffect a s).size = s.size := by
      cases a <;> rfl
    simpa [runSteps, hroot, hsize] using h

/-- **C8**: running any prefix of any of the three traversals (full or
abandoned partway) leaves the tree's root structure and its `size` field
unchanged — the traversals are read-only on the tree. -/
theorem traversals_read_only (t : RBTree) (s : StoreState) (k : ℕ) :
    (runSteps ((traversePreOrder t).take k) s).root = s.root ∧
    (runSteps ((traversePreOrder t).take k) s).size = s.size ∧
    (runSteps ((traverseInOrder t).take k) s).root = s.root ∧
    (runSteps ((traverseInOrder t).take k) s).size = s.size ∧
    (runSteps ((traversePostOrder t).take k) s).root = s.root ∧
    (runSteps ((traversePostOrder t).take k) s).size = s.size :=
  ⟨(runSteps_root_size _ s).1, (runSteps_root_size _ s).2,
   (runSteps_root_size _ s).1, (runSteps_root_size _ s).2,
   (runSteps_root_size _ s).1, (runSteps_root_size _ s).2⟩

/-- **C7**: a `rotateLeft` followed by `rotateRight` on the node that
took its place restores the original subtree exactly (values, children
and, through the unchanged zipper context, the parent link and the
tree's root pointer), and symmetrically. -/
theorem rotation_round_trip (t t₂ : RBTree) :
    (RedBlackTree.rotateLeft t = some t₂ → RedBlackTree.rotateRight t₂ = some t) ∧
    (RedBlackTree.rotateRight t = some t₂ → RedBlackTree.rotateLeft t₂ = some t) := by
  constructor
  · intro h
    match t, h with
    | .node c l v (.node rc rl rv rr), h =>
      cases Option.some.inj h
      rfl
  · intro h
    match t, h with
    | .node c (.node lc ll lv lr) v r, h =>
      cases Option.some.inj h
      rfl

/-- Witness for **C7** at the subtree `A(B, C(D, E))` of the source's
`rotateLeft` diagram. -/
theorem rotation_round_trip_witness :
    RedBlackTree.rotateRight
        (.node .black (.node .red (.node .black .nil 1 .nil) 2 (.node .black .nil 3 .nil)) 4
          (.node .black .nil 5 .nil)) =
      some (.node .red (.node .black .nil 1 .nil) 2
        (.node .black (.node .black .nil 3 .nil) 4 (.node .black .nil 5 .nil))) :=
  (rotation_round_trip
      (.node .red (.node .black .nil 1 .nil) 2
        (.node .black (.node .black .nil 3 .nil) 4 (.node .black .nil 5 .nil)))
      (.node .black (.node .red (.node .black .nil 1 .nil) 2 (.node .black .nil 3 .nil)) 4
        (.node .black .nil 5 .nil))).1 (by rfl)

end TreeExplorer

/-! ## Claims about removal entry points and the Case 2 step ordering -/

namespace TreeExplorer

open RBTree AbstractTree

theorem findRemovedNode_eq_false_of_not_mem {x : Int} :
    ∀ {t : RBTree}, memB x t = false → RedBlackTree.findRemovedNode x t = false := by
  intro t
  induction t with
  | nil => intro _; rfl
  | node c l v r ihl ihr =>
    intro h
    simp only [memB, Bool.or_eq_false_iff, beq_eq_false_iff_ne] at h
    obtain ⟨⟨hv, hl⟩, hr⟩ := h
    by_cases h₁ : x < v
    · simpa [RedBlackTree.findRemovedNode, h₁] using ihl hl
    · by_cases h₂ : v < x
      · simpa [RedBlackTree.findRemovedNode, h₁, h₂] using ihr hr
      · exact absurd (by omega : x = v) hv

theorem removeRecursive_of_not_mem {x : Int} :
    ∀ {t : RBTree}, memB x t = false → NaiveTree.removeRecursive x t = t := by
  intro t
  induction t with
  | nil => intro _; rfl
  | node c l v r ihl ihr =>
    intro h
    simp only [memB, Bool.or_eq_false_iff, beq_eq_false_iff_ne] at h
    obtain ⟨⟨hv, hl⟩, hr⟩ := h
    by_cases h₁ : x < v
    · rw [NaiveTree.removeRecursive.eq_def]
      simp [h₁, ihl hl]
    · by_cases h₂ : v < x
      · rw [NaiveTree.removeRecursive.eq_def]
        simp [h₁, h₂, ihr hr]
      · exact absurd (by omega : x = v) hv

/-- **C5, counterexample**: removing the absent value `5` from an empty
`NaiveTree` store leaves the node structure alone but changes the
observable `size` field from `0` to `-1`, so `removeItem` of an absent
value is *not* a no-op on the observable state for every variant. -/
theorem removeItem_absent_counterexample :
    (NaiveTree.removeItem 5 ⟨.nil, 0⟩).size = -1 ∧
    (NaiveTree.removeItem 5 ⟨.nil, 0⟩).size ≠ (⟨.nil, 0⟩ : TreeState).size := by
  decide

/-- **C5, amended**: for a value not present in the tree, `removeItem`
leaves the node structure unchanged in both variants; the
`RedBlackTree` variant also leaves `size` unchanged (a full no-op),
while the `NaiveTree` variant still decrements `size` by one. -/
theorem removeItem_absent (x : Int) (s : TreeState) (h : memB x s.root = false) :
    RedBlackTree.removeItem x s = some s ∧
    (NaiveTree.removeItem x s).root = s.root ∧
    (NaiveTree.removeItem x s).size = s.size - 1 := by
  refine ⟨?_, ?_, rfl⟩
  · simp [RedBlackTree.removeItem, findRemovedNode_eq_false_of_not_mem h]
  · simp [NaiveTree.removeItem, removeRecursive_of_not_mem h]

/-- Witness for **C5 (amended)**: removing `3` from the singleton store
holding only `7`. -/
theorem removeItem_absent_witness :
    RedBlackTree.removeItem 3 ⟨.node .black .nil 7 .nil, 1⟩
        = some ⟨.node .black .nil 7 .nil, 1⟩ ∧
    (NaiveTree.removeItem 3 ⟨.node .black .nil 7 .nil, 1⟩).root = .node .black .nil 7 .nil ∧
    (NaiveTree.removeItem 3 ⟨.node .black .nil 7 .nil, 1⟩).size = 1 - 1 :=
  removeItem_absent 3 ⟨.node .black .nil 7 .nil, 1⟩ (by decide)

/-- **C6, counterexample**: after the operation sequence `[remove 5]` on
an initially empty `NaiveTree` store, `size` is `-1` but the tree holds
no values at all, so the size field does not equal the number of
distinct values present after every sequence of insert and remove
operations. -/
theorem size_tracking_counterexample :
    (NaiveTree.runOps ⟨.nil, 0⟩ [.del 5]).size ≠
      ((inorder (NaiveTree.runOps ⟨.nil, 0⟩ [.del 5]).root).length : Int) := by
  decide

/-- **C3, counterexample**: on the tree `20(black){10(red), 30(red)}`,
the two-children promotion step of `spliceNode` leaves the target node
black while the in-order successor's former colour is red — the
successor's colour is *not* copied into the target node. -/
theorem spliceNodePromote_counterexample :
    (RedBlackTree.spliceNodePromote
        (.node .black (.node .red .nil 10 .nil) 20 (.node .red .nil 30 .nil))).map
        (fun pr => (topColour pr.1, topColour pr.2)) = some (.black, .red) ∧
    Colour.black ≠ Colour.red := by
  decide

/-- **C3, amended**: for every node with two non-sentinel children, the
promotion step copies the in-order successor's *value only* into the
target node — the target keeps its own colour — and re-targets the
deletion onto the successor node, the leftmost node of the right
subtree. -/
theorem spliceNodePromote_spec (c : Colour) (l : RBTree) (v : Int) (r : RBTree)
    (hl : l ≠ .nil) (hr : r ≠ .nil) :
    ∃ mc mv mr,
      minChild r = .node mc .nil mv mr ∧
      RedBlackTree.spliceNodePromote (.node c l v r)
        = some (.node c l mv r, .node mc .nil mv mr) ∧
      LeftReach r (minChild r) := by
  obtain ⟨mc, mv, mr, rest, hmc, hreach, hino⟩ := minChild_spec hr
  match l, r, hl, hr with
  | .node lc ll lv lr, .node rc rl rv rr, _, _ =>
    refine ⟨mc, mv, mr, hmc, ?_, hreach⟩
    have heq : RedBlackTree.spliceNodePromote (.node c (.node lc ll lv lr) v (.node rc rl rv rr))
        = match minChild (.node rc rl rv rr) with
          | .node mc₂ ml₂ mv₂ mr₂ =>
            some (.node c (.node lc ll lv lr) mv₂ (.node rc rl rv rr), .node mc₂ ml₂ mv₂ mr₂)
          | .nil => none := rfl
    rw [heq, hmc]

/-- Witness for **C3 (amended)** at the counterexample tree. -/
theorem spliceNodePromote_spec_witness :
    ∃ mc mv mr,
      minChild (.node .red .nil 30 .nil) = .node mc .nil mv mr ∧
      RedBlackTree.spliceNodePromote
          (.node .black (.node .red .nil 10 .nil) 20 (.node .red .nil 30 .nil))
        = some (.node .black (.node .red .nil 10 .nil) mv (.node .red .nil 30 .nil),
            .node mc .nil mv mr) ∧
      LeftReach (.node .red .nil 30 .nil) (minChild (.node .red .nil 30 .nil)) :=
  spliceNodePromote_spec .black (.node .red .nil 10 .nil) 20 (.node .red .nil 30 .nil)
    (by decide) (by decide)

/-- **C4**: in double-black rebalancing Case 2 the source starts the
parent rotation without awaiting it.  Replaying the method's microtask
schedule (automatic resumption, FIFO resolution) shows the recolouring
of parent and sibling and the re-run from Case 1 execute *before* the
rotation's outer-link mutation and remaining steps — the trace differs
from the one required by the specification's ordering guarantee, under
which the rotation completes first.  The guard computation confirms
Case 2 (and not Case 1) fires for node `10` of the tree
`20(black){10(black), 30(red){25(black), 35(black)}}`, i.e. for
`removeItem(10)` on that tree. -/
theorem caseTwo_step_ordering :
    caseTwoTrace =
      [.promoteGrandchild, .recolourParentRed, .recolourSiblingBlack,
       .rerunFromCaseOne, .fixOuterLink] ∧
    caseTwoTrace ≠ specifiedCaseTwoTrace ∧
    RedBlackTree.rebalanceRotateRedSiblingGuard
      (.inL .black 20
        (.node .red (.node .black .nil 25 .nil) 30 (.node .black .nil 35 .nil)) .root) = true ∧
    (Path.inL .black 20
        (.node .red (.node .black .nil 25 .nil) 30 (.node .black .nil 35 .nil)) .root : Path)
      ≠ .root := by
  refine ⟨by decide, by decide, by decide, by decide⟩

end TreeExplorer

/-! ## Zipper lemmas -/

namespace TreeExplorer

open RBTree AbstractTree

theorem inorder_paint (c : Colour) : ∀ (t : RBTree), inorder (paint c t) = inorder t := by
  intro t
  cases t <;> rfl

theorem noRedRed_paint_black {t : RBTree} (h : noRedRed t = true) :
    noRedRed (paint .black t) = true := by
  cases t with
  | nil => rfl
  | node c l v r =>
    simp only [noRedRed, Bool.and_eq_true] at h
    simp only [paint, noRedRed, Bool.and_eq_true]
    exact ⟨⟨trivial, h.1.2⟩, h.2⟩

theorem topColour_paint_black : ∀ (t : RBTree), topColour (paint .black t) = .black := by
  intro t
  cases t <;> rfl

theorem blackHeight?_node_iff {c : Colour} {l : RBTree} {v : Int} {r : RBTree} {H : Nat} :
    blackHeight? (.node c l v r) = some H ↔
      ∃ h, blackHeight? l = some h ∧ blackHeight? r = some h ∧ H = h + Colour.bh c := by
  rw [show blackHeight? (.node c l v r)
      = (match blackHeight? l, blackHeight? r with
         | some hl, some hr => if hl = hr then some (hl + Colour.bh c) else none
         | _, _ => none) from rfl]
  cases hl : blackHeight? l with
  | none => simp
  | some a =>
    cases hr : blackHeight? r with
    | none => simp
    | some b =>
      by_cases hab : a = b
      · subst hab
        have hstep : (match (some a : Option Nat), (some a : Option Nat) with
              | some hl, some hr => if hl = hr then some (hl + Colour.bh c) else none
              | _, _ => none) = if a = a then some (a + Colour.bh c) else none := rfl
        rw [hstep, if_pos rfl]
        constructor
        · intro hh
          cases hh
          exact ⟨a, rfl, rfl, rfl⟩
        · rintro ⟨h₂, he₁, he₂, he₃⟩
          cases he₁
          subst he₃
          rfl
      · have hstep : (match (some a : Option Nat), (some b : Option Nat) with
              | some hl, some hr => if hl = hr then some (hl + Colour.bh c) else none
              | _, _ => none) = if a = b then some (a + Colour.bh c) else none := rfl
        rw [hstep, if_neg hab]
        constructor
        · intro hh
          cases hh
        · rintro ⟨h₂, he₁, he₂, he₃⟩
          cases he₁
          cases he₂
          exact absurd rfl hab

theorem noRedRed_node_iff {c : Colour} {l : RBTree} {v : Int} {r : RBTree} :
    noRedRed (.node c l v r) = true ↔
      (c = .red → topColour l = .black ∧ topColour r = .black) ∧
        noRedRed l = true ∧ noRedRed r = true := by
  cases c <;>
    simp [noRedRed, Bool.and_eq_true, and_assoc]

theorem red_shape {f : RBTree} (h : topColour f = .red) :
    ∃ l v r, f = .node .red l v r := by
  cases f with
  | nil => exact absurd h (by simp [topColour])
  | node c l v r =>
    cases c with
    | red => exact ⟨l, v, r, rfl⟩
    | black => exact absurd h (by simp [topColour])

theorem inorder_plug : ∀ (p : Path) (f : RBTree),
    inorder (p.plug f) = p.ctxL ++ inorder f ++ p.ctxR := by
  intro p
  induction p with
  | root => intro f; simp [Path.plug, Path.ctxL, Path.ctxR]
  | inL c v sib q ih =>
    intro f
    rw [show Path.plug (.inL c v sib q) f = q.plug (.node c f v sib) from rfl, ih]
    simp [Path.ctxL, Path.ctxR, inorder]
  | inR c sib v q ih =>
    intro f
    rw [show Path.plug (.inR c sib v q) f = q.plug (.node c sib v f) from rfl, ih]
    simp [Path.ctxL, Path.ctxR, inorder]

theorem topColour_plug : ∀ (p : Path) (f : RBTree),
    topColour (p.plug f) = p.outColour (topColour f) := by
  intro p
  induction p with
  | root => intro f; rfl
  | inL c v sib q ih => intro f; exact ih (.node c f v sib)
  | inR c sib v q ih => intro f; exact ih (.node c sib v f)

theorem outColour_black {q : Path} {c₀ : Colour} (hq : q.outColour c₀ = .black)
    (fc : Colour) (hfc : q = .root → fc = .black) : q.outColour fc = .black := by
  cases q with
  | root => exact hfc rfl
  | inL c v sib p => exact hq
  | inR c sib v p => exact hq

theorem pathBal_inL_iff {c : Colour} {v : Int} {sib : RBTree} {p : Path} {h H : Nat} :
    Path.pathBal (.inL c v sib p) h = some H ↔
      blackHeight? sib = some h ∧ p.pathBal (h + Colour.bh c) = some H := by
  cases hs : blackHeight? sib with
  | none => simp [Path.pathBal, hs]
  | some a =>
    by_cases hah : a = h
    · subst hah; simp [Path.pathBal, hs]
    · simp [Path.pathBal, hs, hah]

theorem pathBal_inR_iff {c : Colour} {v : Int} {sib : RBTree} {p : Path} {h H : Nat} :
    Path.pathBal (.inR c sib v p) h = some H ↔
      blackHeight? sib = some h ∧ p.pathBal (h + Colour.bh c) = some H := by
  cases hs : blackHeight? sib with
  | none => simp [Path.pathBal, hs]
  | some a =>
    by_cases hah : a = h
    · subst hah; simp [Path.pathBal, hs]
    · simp [Path.pathBal, hs, hah]

theorem pathOkRR_inL_iff {c : Colour} {v : Int} {sib : RBTree} {p : Path} :
    Path.pathOkRR (.inL c v sib p) = true ↔
      noRedRed sib = true ∧ p.pathOkRR = true ∧
        (c = .red → topColour sib = .black ∧ p.parentColour = .black) := by
  cases c <;> simp [Path.pathOkRR, Bool.and_eq_true, and_assoc]

theorem pathOkRR_inR_iff {c : Colour} {v : Int} {sib : RBTree} {p : Path} :
    Path.pathOkRR (.inR c sib v p) = true ↔
      noRedRed sib = true ∧ p.pathOkRR = true ∧
        (c = .red → topColour sib = .black ∧ p.parentColour = .black) := by
  cases c <;> simp [Path.pathOkRR, Bool.and_eq_true, and_assoc]

theorem pathBal_plug : ∀ (p : Path) {f : RBTree} {h H : Nat},
    p.pathBal h = some H → blackHeight? f = some h →
    blackHeight? (p.plug f) = some H := by
  intro p
  induction p with
  | root =>
    intro f h H hp hf
    cases hp
    exact hf
  | inL c v sib q ih =>
    intro f h H hp hf
    obtain ⟨hs, hq⟩ := pathBal_inL_iff.mp hp
    exact ih hq (blackHeight?_node_iff.mpr ⟨h, hf, hs, rfl⟩)
  | inR c sib v q ih =>
    intro f h H hp hf
    obtain ⟨hs, hq⟩ := pathBal_inR_iff.mp hp
    exact ih hq (blackHeight?_node_iff.mpr ⟨h, hs, hf, rfl⟩)

theorem noRedRed_plug : ∀ (p : Path) {f : RBTree},
    p.pathOkRR = true → noRedRed f = true →
    (p.parentColour = .red → topColour f = .black) →
    noRedRed (p.plug f) = true := by
  intro p
  induction p with
  | root => intro f _ hf _; exact hf
  | inL c v sib q ih =>
    intro f hp hf hpc
    obtain ⟨hsib, hq, hred⟩ := pathOkRR_inL_iff.mp hp
    refine ih hq ?_ ?_
    · refine noRedRed_node_iff.mpr ⟨?_, hf, hsib⟩
      intro hc
      exact ⟨hpc hc, (hred hc).1⟩
    · intro hqred
      show c = .black
      cases c with
      | black => rfl
      | red => rw [(hred rfl).2] at hqred; cases hqred
  | inR c sib v q ih =>
    intro f hp hf hpc
    obtain ⟨hsib, hq, hred⟩ := pathOkRR_inR_iff.mp hp
    refine ih hq ?_ ?_
    · refine noRedRed_node_iff.mpr ⟨?_, hsib, hf⟩
      intro hc
      exact ⟨(hred hc).1, hpc hc⟩
    · intro hqred
      show c = .black
      cases c with
      | black => rfl
      | red => rw [(hred rfl).2] at hqred; cases hqred

/-- All invariant obligations for a case of the fixup that finishes by
plugging a black-topped balanced subtree into the remaining context. -/
theorem plug_final {q : Path} {S : RBTree} {h H : Nat}
    (hbal : q.pathBal h = some H) (hrr : q.pathOkRR = true)
    (hS : blackHeight? S = some h) (hSrr : noRedRed S = true)
    (hStop : topColour S = .black) (hout : q.outColour (topColour S) = .black) :
    topColour (q.plug S) = .black ∧ noRedRed (q.plug S) = true ∧
      (blackHeight? (q.plug S)).isSome ∧
      inorder (q.plug S) = q.ctxL ++ inorder S ++ q.ctxR := by
  refine ⟨?_, ?_, ?_, inorder_plug q S⟩
  · rw [topColour_plug]; exact hout
  · exact noRedRed_plug q hrr hSrr (fun _ => hStop)
  · rw [pathBal_plug q hbal hS]; rfl

end TreeExplorer

/-! ## Lemmas about the structural insertion -/

namespace TreeExplorer

open RBTree AbstractTree

theorem addRecursive_isSome {x : Int} : ∀ {t : RBTree} (p : Path),
    memB x t = false → (addRecursive x t p).isSome := by
  intro t
  induction t with
  | nil => intro p _; rfl
  | node c l v r ihl ihr =>
    intro p h
    simp only [memB, Bool.or_eq_false_iff, beq_eq_false_iff_ne] at h
    obtain ⟨⟨hv, hl⟩, hr⟩ := h
    by_cases h₁ : x < v
    · simpa [addRecursive, h₁] using ihl _ hl
    · by_cases h₂ : v < x
      · simpa [addRecursive, h₁, h₂] using ihr _ hr
      · exact absurd (by omega : x = v) hv

theorem addRecursive_plug {x : Int} : ∀ {t : RBTree} {p p₂ : Path},
    addRecursive x t p = some p₂ →
    ∀ g, p₂.plug g = p.plug (structuralInsert g x t) := by
  intro t
  induction t with
  | nil =>
    intro p p₂ h g
    cases h
    rfl
  | node c l v r ihl ihr =>
    intro p p₂ h g
    by_cases h₁ : x < v
    · rw [addRecursive] at h
      rw [if_pos h₁] at h
      rw [ihl h g]
      simp [structuralInsert, h₁, Path.plug]
    · by_cases h₂ : v < x
      · rw [addRecursive] at h
        rw [if_neg h₁, if_pos h₂] at h
        rw [ihr h g]
        simp [structuralInsert, h₁, h₂, Path.plug]
      · rw [addRecursive] at h
        rw [if_neg h₁, if_neg h₂] at h
        cases h

theorem addRecursive_pathBal {x : Int} : ∀ {t : RBTree} {p p₂ : Path} {h H : Nat},
    addRecursive x t p = some p₂ → blackHeight? t = some h → p.pathBal h = some H →
    p₂.pathBal 0 = some H := by
  intro t
  induction t with
  | nil =>
    intro p p₂ h H hadd hbh hbal
    cases hadd
    cases hbh
    exact hbal
  | node c l v r ihl ihr =>
    intro p p₂ h H hadd hbh hbal
    obtain ⟨h₀, hbl, hbr, hsum⟩ := blackHeight?_node_iff.mp hbh
    subst hsum
    by_cases h₁ : x < v
    · rw [addRecursive, if_pos h₁] at hadd
      exact ihl hadd hbl (pathBal_inL_iff.mpr ⟨hbr, hbal⟩)
    · by_cases h₂ : v < x
      · rw [addRecursive, if_neg h₁, if_pos h₂] at hadd
        exact ihr hadd hbr (pathBal_inR_iff.mpr ⟨hbl, hbal⟩)
      · rw [addRecursive, if_neg h₁, if_neg h₂] at hadd
        cases hadd

theorem addRecursive_pathOkRR {x : Int} : ∀ {t : RBTree} {p p₂ : Path},
    addRecursive x t p = some p₂ → noRedRed t = true → p.pathOkRR = true →
    (p.parentColour = .red → topColour t = .black) →
    p₂.pathOkRR = true := by
  intro t
  induction t with
  | nil =>
    intro p p₂ hadd _ hok _
    cases hadd
    exact hok
  | node c l v r ihl ihr =>
    intro p p₂ hadd hrr hok hpc
    obtain ⟨hc, hrl, hrr₂⟩ := noRedRed_node_iff.mp hrr
    have hcb : p.parentColour = .red → c = .black := by
      intro hred
      have := hpc hred
      simpa [topColour] using this
    have hpcb : c = .red → p.parentColour = .black := by
      intro hcr
      cases hp : p.parentColour with
      | black => rfl
      | red =>
        have hcon := hcb hp
        rw [hcr] at hcon
        cases hcon
    by_cases h₁ : x < v
    · rw [addRecursive, if_pos h₁] at hadd
      refine ihl hadd hrl
        (pathOkRR_inL_iff.mpr ⟨hrr₂, hok, fun hcr => ⟨(hc hcr).2, hpcb hcr⟩⟩) ?_
      intro hcr
      exact (hc (by simpa [Path.parentColour] using hcr)).1
    · by_cases h₂ : v < x
      · rw [addRecursive, if_neg h₁, if_pos h₂] at hadd
        refine ihr hadd hrr₂
          (pathOkRR_inR_iff.mpr ⟨hrl, hok, fun hcr => ⟨(hc hcr).1, hpcb hcr⟩⟩) ?_
        intro hcr
        exact (hc (by simpa [Path.parentColour] using hcr)).2
      · rw [addRecursive, if_neg h₁, if_neg h₂] at hadd
        cases hadd

theorem addRecursive_rootOK {x : Int} : ∀ {t : RBTree} {p p₂ : Path},
    addRecursive x t p = some p₂ → p.RootOK →
    (p = .root → t = .nil ∨ topColour t = .black) →
    p₂.RootOK := by
  intro t
  induction t with
  | nil =>
    intro p p₂ hadd hro _
    cases hadd
    exact hro
  | node c l v r ihl ihr =>
    intro p p₂ hadd hro hroot
    have hcL : Path.RootOK (Path.inL c v r p) := by
      rcases hro with hp | hp
      · subst hp
        rcases hroot rfl with hnil | hblack
        · exact RBTree.noConfusion hnil
        · have hcb : c = .black := by simpa [topColour] using hblack
          exact Or.inr fun fc => by simp [Path.outColour, hcb]
      · exact Or.inr fun fc => hp c
    have hcR : Path.RootOK (Path.inR c l v p) := by
      rcases hro with hp | hp
      · subst hp
        rcases hroot rfl with hnil | hblack
        · exact RBTree.noConfusion hnil
        · have hcb : c = .black := by simpa [topColour] using hblack
          exact Or.inr fun fc => by simp [Path.outColour, hcb]
      · exact Or.inr fun fc => hp c
    by_cases h₁ : x < v
    · rw [addRecursive, if_pos h₁] at hadd
      exact ihl hadd hcL (by intro hcon; cases hcon)
    · by_cases h₂ : v < x
      · rw [addRecursive, if_neg h₁, if_pos h₂] at hadd
        exact ihr hadd hcR (by intro hcon; cases hcon)
      · rw [addRecursive, if_neg h₁, if_neg h₂] at hadd
        cases hadd

end TreeExplorer

/-! ## The insertion fixup: case lemmas -/

namespace TreeExplorer

open RBTree AbstractTree

theorem rootOK_of_out {q : Path} {c₀ : Colour} (h : q.outColour c₀ = .black) : q.RootOK := by
  cases q with
  | root => exact Or.inl rfl
  | inL c v s p => exact Or.inr fun fc => h
  | inR c s v p => exact Or.inr fun fc => h

theorem black_node_inv {l r : RBTree} {v : Int} {h : Nat}
    (hbl : blackHeight? l = some h) (hbr : blackHeight? r = some h)
    (hlrr : noRedRed l = true) (hrrr : noRedRed r = true) :
    noRedRed (.node .black l v r) = true ∧
      blackHeight? (.node .black l v r) = some (h + 1) :=
  ⟨noRedRed_node_iff.mpr ⟨(fun hc => nomatch hc), hlrr, hrrr⟩,
   blackHeight?_node_iff.mpr ⟨h, hbl, hbr, rfl⟩⟩

theorem red_node_inv {l r : RBTree} {v : Int} {h : Nat}
    (hbl : blackHeight? l = some h) (hbr : blackHeight? r = some h)
    (hlrr : noRedRed l = true) (hrrr : noRedRed r = true)
    (hltop : topColour l = .black) (hrtop : topColour r = .black) :
    noRedRed (.node .red l v r) = true ∧
      blackHeight? (.node .red l v r) = some h :=
  ⟨noRedRed_node_iff.mpr ⟨fun _ => ⟨hltop, hrtop⟩, hlrr, hrrr⟩,
   blackHeight?_node_iff.mpr ⟨h, hbl, hbr, rfl⟩⟩

/-- Case "node is the root" of the fixup (`rebalance` lines 39-46). -/
theorem reb_root {f : RBTree} {h : Nat}
    (hfred : topColour f = .red) (hfrr : noRedRed f = true)
    (hfbh : blackHeight? f = some h) :
    RebalanceGoal f .root := by
  obtain ⟨fl, fv, fr, rfl⟩ := red_shape hfred
  obtain ⟨h₀, hbl, hbr, hh⟩ := blackHeight?_node_iff.mp hfbh
  obtain ⟨-, hflrr, hfrrr⟩ := noRedRed_node_iff.mp hfrr
  refine ⟨.node .black fl fv fr, rfl, rfl, ?_, ?_, ?_⟩
  · exact (black_node_inv hbl hbr hflrr hfrrr).1
  · rw [(black_node_inv hbl hbr hflrr hfrrr).2]; rfl
  · simp [Path.ctxL, Path.ctxR, inorder]

/-- Case "parent is black" of the fixup (`rebalance` lines 47-56), focus
on the left of its parent. -/
theorem reb_black_inL {f psib : RBTree} {pv : Int} {pp : Path} {h H : Nat}
    (hbal : Path.pathBal (.inL .black pv psib pp) h = some H)
    (hok : Path.pathOkRR (.inL .black pv psib pp) = true)
    (hro : Path.RootOK (.inL .black pv psib pp))
    (hfrr : noRedRed f = true) (hfbh : blackHeight? f = some h) :
    RebalanceGoal f (.inL .black pv psib pp) := by
  obtain ⟨hbpsib, hbalpp⟩ := pathBal_inL_iff.mp hbal
  obtain ⟨hpsibRR, hokpp, -⟩ := pathOkRR_inL_iff.mp hok
  have hS := black_node_inv hfbh hbpsib hfrr hpsibRR (v := pv)
  have hout : pp.outColour (topColour (RBTree.node .black f pv psib)) = .black := by
    rcases hro with hcon | hp
    · cases hcon
    · exact hp .red
  have hfin := plug_final (h := h + 1) (by simpa [Colour.bh] using hbalpp) hokpp hS.2 hS.1 rfl hout
  refine ⟨pp.plug (.node .black f pv psib), ?_, hfin.1, hfin.2.1, hfin.2.2.1, ?_⟩
  · rw [RedBlackTree.rebalance]
  · rw [hfin.2.2.2]
    simp [Path.ctxL, Path.ctxR, inorder]

/-- Case "parent is black", focus on the right of its parent. -/
theorem reb_black_inR {f psib : RBTree} {pv : Int} {pp : Path} {h H : Nat}
    (hbal : Path.pathBal (.inR .black psib pv pp) h = some H)
    (hok : Path.pathOkRR (.inR .black psib pv pp) = true)
    (hro : Path.RootOK (.inR .black psib pv pp))
    (hfrr : noRedRed f = true) (hfbh : blackHeight? f = some h) :
    RebalanceGoal f (.inR .black psib pv pp) := by
  obtain ⟨hbpsib, hbalpp⟩ := pathBal_inR_iff.mp hbal
  obtain ⟨hpsibRR, hokpp, -⟩ := pathOkRR_inR_iff.mp hok
  have hS := black_node_inv hbpsib hfbh hpsibRR hfrr (v := pv)
  have hout : pp.outColour (topColour (RBTree.node .black psib pv f)) = .black := by
    rcases hro with hcon | hp
    · cases hcon
    · exact hp .red
  have hfin := plug_final (h := h + 1) (by simpa [Colour.bh] using hbalpp) hokpp hS.2 hS.1 rfl hout
  refine ⟨pp.plug (.node .black psib pv f), ?_, hfin.1, hfin.2.1, hfin.2.2.1, ?_⟩
  · rw [RedBlackTree.rebalance]
  · rw [hfin.2.2.2]
    simp [Path.ctxL, Path.ctxR, inorder]

end TreeExplorer

/-! ## The insertion fixup: rotation case lemmas -/

namespace TreeExplorer

open RBTree AbstractTree

/-- Rotation case, node and parent both left children: single rotation
about the grandparent (`rebalanceDifferingAntecedents` with neither
`doRotateLeft` nor `doRotateRight`). -/
theorem reb_rda_LL {f psib gsib : RBTree} {pv gv : Int} {gp : Path} {h H : Nat}
    (hfrr : noRedRed f = true) (hfbh : blackHeight? f = some h)
    (hpsibTop : topColour psib = .black) (hpsibRR : noRedRed psib = true)
    (hbpsib : blackHeight? psib = some h)
    (hgs : topColour gsib = .black) (hgsibRR : noRedRed gsib = true)
    (hbgsib : blackHeight? gsib = some h)
    (hbalgp : gp.pathBal (h + 1) = some H) (hokgp : gp.pathOkRR = true)
    (hggc : gp.outColour .black = .black) :
    RebalanceGoal f (.inL .red pv psib (.inL .black gv gsib gp)) := by
  have hR := red_node_inv (v := gv) hbpsib hbgsib hpsibRR hgsibRR hpsibTop hgs
  have hS := black_node_inv (v := pv) hfbh hR.2 hfrr hR.1
  have hfin := plug_final hbalgp hokgp hS.2 hS.1 rfl hggc
  refine ⟨gp.plug (.node .black f pv (.node .red psib gv gsib)), ?_,
    hfin.1, hfin.2.1, hfin.2.2.1, ?_⟩
  · rw [RedBlackTree.rebalance, hgs]
    rfl
  · rw [hfin.2.2.2]
    simp [Path.ctxL, Path.ctxR, inorder]

/-- Rotation case, node and parent both right children. -/
theorem reb_rda_RR {f psib gsib : RBTree} {pv gv : Int} {gp : Path} {h H : Nat}
    (hfrr : noRedRed f = true) (hfbh : blackHeight? f = some h)
    (hpsibTop : topColour psib = .black) (hpsibRR : noRedRed psib = true)
    (hbpsib : blackHeight? psib = some h)
    (hgs : topColour gsib = .black) (hgsibRR : noRedRed gsib = true)
    (hbgsib : blackHeight? gsib = some h)
    (hbalgp : gp.pathBal (h + 1) = some H) (hokgp : gp.pathOkRR = true)
    (hggc : gp.outColour .black = .black) :
    RebalanceGoal f (.inR .red psib pv (.inR .black gsib gv gp)) := by
  have hR := red_node_inv (v := gv) hbgsib hbpsib hgsibRR hpsibRR hgs hpsibTop
  have hS := black_node_inv (v := pv) hR.2 hfbh hR.1 hfrr
  have hfin := plug_final hbalgp hokgp hS.2 hS.1 rfl hggc
  refine ⟨gp.plug (.node .black (.node .red gsib gv psib) pv f), ?_,
    hfin.1, hfin.2.1, hfin.2.2.1, ?_⟩
  · rw [RedBlackTree.rebalance, hgs]
    rfl
  · rw [hfin.2.2.2]
    simp [Path.ctxL, Path.ctxR, inorder]

/-- Rotation case, node a right child "inside" a left-child parent: the
parent is rotated left first, then the grandparent right. -/
theorem reb_rda_RL {f psib gsib : RBTree} {pv gv : Int} {gp : Path} {h H : Nat}
    (hfred : topColour f = .red) (hfrr : noRedRed f = true)
    (hfbh : blackHeight? f = some h)
    (hpsibTop : topColour psib = .black) (hpsibRR : noRedRed psib = true)
    (hbpsib : blackHeight? psib = some h)
    (hgs : topColour gsib = .black) (hgsibRR : noRedRed gsib = true)
    (hbgsib : blackHeight? gsib = some h)
    (hbalgp : gp.pathBal (h + 1) = some H) (hokgp : gp.pathOkRR = true)
    (hggc : gp.outColour .black = .black) :
    RebalanceGoal f (.inR .red psib pv (.inL .black gv gsib gp)) := by
  obtain ⟨fl, fv, fr, rfl⟩ := red_shape hfred
  obtain ⟨hftops, hflrr, hfrrr⟩ := noRedRed_node_iff.mp hfrr
  obtain ⟨hfltop, hfrtop⟩ := hftops rfl
  obtain ⟨h₀, hbfl, hbfr, hh₀⟩ := blackHeight?_node_iff.mp hfbh
  have hh : h₀ = h := by simpa [Colour.bh] using hh₀.symm
  subst hh
  have hL := red_node_inv (v := pv) hbpsib hbfl hpsibRR hflrr hpsibTop hfltop
  have hR := red_node_inv (v := gv) hbfr hbgsib hfrrr hgsibRR hfrtop hgs
  have hS := black_node_inv (v := fv) hL.2 hR.2 hL.1 hR.1
  have hfin := plug_final hbalgp hokgp hS.2 hS.1 rfl hggc
  refine ⟨gp.plug (.node .black (.node .red psib pv fl) fv (.node .red fr gv gsib)), ?_,
    hfin.1, hfin.2.1, hfin.2.2.1, ?_⟩
  · rw [RedBlackTree.rebalance, hgs]
    rfl
  · rw [hfin.2.2.2]
    simp [Path.ctxL, Path.ctxR, inorder]

/-- Rotation case, node a left child "inside" a right-child parent: the
parent is rotated right first, then the grandparent left. -/
theorem reb_rda_LR {f psib gsib : RBTree} {pv gv : Int} {gp : Path} {h H : Nat}
    (hfred : topColour f = .red) (hfrr : noRedRed f = true)
    (hfbh : blackHeight? f = some h)
    (hpsibTop : topColour psib = .black) (hpsibRR : noRedRed psib = true)
    (hbpsib : blackHeight? psib = some h)
    (hgs : topColour gsib = .black) (hgsibRR : noRedRed gsib = true)
    (hbgsib : blackHeight? gsib = some h)
    (hbalgp : gp.pathBal (h + 1) = some H) (hokgp : gp.pathOkRR = true)
    (hggc : gp.outColour .black = .black) :
    RebalanceGoal f (.inL .red pv psib (.inR .black gsib gv gp)) := by
  obtain ⟨fl, fv, fr, rfl⟩ := red_shape hfred
  obtain ⟨hftops, hflrr, hfrrr⟩ := noRedRed_node_iff.mp hfrr
  obtain ⟨hfltop, hfrtop⟩ := hftops rfl
  obtain ⟨h₀, hbfl, hbfr, hh₀⟩ := blackHeight?_node_iff.mp hfbh
  have hh : h₀ = h := by simpa [Colour.bh] using hh₀.symm
  subst hh
  have hL := red_node_inv (v := gv) hbgsib hbfl hgsibRR hflrr hgs hfltop
  have hR := red_node_inv (v := pv) hbfr hbpsib hfrrr hpsibRR hfrtop hpsibTop
  have hS := black_node_inv (v := fv) hL.2 hR.2 hL.1 hR.1
  have hfin := plug_final hbalgp hokgp hS.2 hS.1 rfl hggc
  refine ⟨gp.plug (.node .black (.node .red gsib gv fl) fv (.node .red fr pv psib)), ?_,
    hfin.1, hfin.2.1, hfin.2.2.1, ?_⟩
  · rw [RedBlackTree.rebalance, hgs]
    rfl
  · rw [hfin.2.2.2]
    simp [Path.ctxL, Path.ctxR, inorder]

end TreeExplorer

/-! ## The insertion fixup: main invariant theorem -/

namespace TreeExplorer

open RBTree AbstractTree

/-- The fixup loop invariant of `RedBlackTree.rebalance`: starting from
a red focus whose subtree obeys the red rule and has the black-height
the context expects, inside a context that is balanced, red-rule-clean
and black at the tree root, the fixup terminates with all three
red-black invariants restored and the in-order sequence untouched. -/
theorem rebalance_ok : ∀ (n : Nat) (p : Path) (f : RBTree) (h H : Nat),
    p.depth ≤ n →
    p.pathBal h = some H → p.pathOkRR = true → p.RootOK →
    topColour f = .red → noRedRed f = true → blackHeight? f = some h →
    RebalanceGoal f p := by
  intro n
  induction n with
  | zero =>
    intro p f h H hdep hbal hok hro hfred hfrr hfbh
    cases p with
    | root => exact reb_root hfred hfrr hfbh
    | inL pc pv psib pp => simp [Path.depth] at hdep
    | inR pc psib pv pp => simp [Path.depth] at hdep
  | succ n ih =>
    intro p f h H hdep hbal hok hro hfred hfrr hfbh
    cases p with
    | root => exact reb_root hfred hfrr hfbh
    | inL pc pv psib pp =>
      cases pc with
      | black => exact reb_black_inL hbal hok hro hfrr hfbh
      | red =>
        obtain ⟨hpsibRR, hokpp, hred⟩ := pathOkRR_inL_iff.mp hok
        obtain ⟨hpsibTop, hppc⟩ := hred rfl
        obtain ⟨hbpsib, hbalpp₀⟩ := pathBal_inL_iff.mp hbal
        have hbalpp : pp.pathBal h = some H := by simpa [Colour.bh] using hbalpp₀
        cases pp with
        | root =>
          rcases hro with hcon | hp
          · cases hcon
          · have hcon2 := hp Colour.red
            simp [Path.outColour] at hcon2
        | inL gc gv gsib gp =>
          have hgcb : gc = .black := hppc
          subst hgcb
          obtain ⟨hgsibRR, hokgp, -⟩ := pathOkRR_inL_iff.mp hokpp
          obtain ⟨hbgsib, hbalgp₀⟩ := pathBal_inL_iff.mp hbalpp
          have hbalgp : gp.pathBal (h + 1) = some H := by
            simpa [Colour.bh] using hbalgp₀
          have hggc : gp.outColour Colour.black = .black := by
            rcases hro with hcon | hp
            · cases hcon
            · exact hp Colour.red
          cases hgs : topColour gsib with
          | black =>
            exact reb_rda_LL hfrr hfbh hpsibTop hpsibRR hbpsib hgs hgsibRR hbgsib
              hbalgp hokgp hggc
          | red =>
            obtain ⟨gl, gw, gr, rfl⟩ := red_shape hgs
            obtain ⟨hgtops, hglrr, hgrrr⟩ := noRedRed_node_iff.mp hgsibRR
            obtain ⟨h₀, hbgl, hbgr, hh₀⟩ := blackHeight?_node_iff.mp hbgsib
            have hh : h₀ = h := by simpa [Colour.bh] using hh₀.symm
            rw [hh] at hbgl hbgr
            have hP := black_node_inv (v := pv) hfbh hbpsib hfrr hpsibRR
            have hO := black_node_inv (v := gw) hbgl hbgr hglrr hgrrr
            have hG := red_node_inv (v := gv) hP.2 hO.2 hP.1 hO.1 rfl rfl
            have hdep2 : gp.depth ≤ n := by
              simp [Path.depth] at hdep
              omega
            obtain ⟨t₂, hreb, ht1, ht2, ht3, hino⟩ :=
              ih gp (.node .red (.node .black f pv psib) gv (.node .black gl gw gr))
                (h + 1) H hdep2 hbalgp hokgp (rootOK_of_out hggc) rfl hG.1 hG.2
            refine ⟨t₂, ?_, ht1, ht2, ht3, ?_⟩
            · rw [RedBlackTree.rebalance]
              exact hreb
            · rw [hino]
              simp [Path.ctxL, Path.ctxR, inorder]
        | inR gc gsib gv gp =>
          have hgcb : gc = .black := hppc
          subst hgcb
          obtain ⟨hgsibRR, hokgp, -⟩ := pathOkRR_inR_iff.mp hokpp
          obtain ⟨hbgsib, hbalgp₀⟩ := pathBal_inR_iff.mp hbalpp
          have hbalgp : gp.pathBal (h + 1) = some H := by
            simpa [Colour.bh] using hbalgp₀
          have hggc : gp.outColour Colour.black = .black := by
            rcases hro with hcon | hp
            · cases hcon
            · exact hp Colour.red
          cases hgs : topColour gsib with
          | black =>
            exact reb_rda_LR hfred hfrr hfbh hpsibTop hpsibRR hbpsib hgs hgsibRR hbgsib
              hbalgp hokgp hggc
          | red =>
            obtain ⟨gl, gw, gr, rfl⟩ := red_shape hgs
            obtain ⟨hgtops, hglrr, hgrrr⟩ := noRedRed_node_iff.mp hgsibRR
            obtain ⟨h₀, hbgl, hbgr, hh₀⟩ := blackHeight?_node_iff.mp hbgsib
            have hh : h₀ = h := by simpa [Colour.bh] using hh₀.symm
            rw [hh] at hbgl hbgr
            have hP := black_node_inv (v := pv) hfbh hbpsib hfrr hpsibRR
            have hO := black_node_inv (v := gw) hbgl hbgr hglrr hgrrr
            have hG := red_node_inv (v := gv) hO.2 hP.2 hO.1 hP.1 rfl rfl
            have hdep2 : gp.depth ≤ n := by
              simp [Path.depth] at hdep
              omega
            obtain ⟨t₂, hreb, ht1, ht2, ht3, hino⟩ :=
              ih gp (.node .red (.node .black gl gw gr) gv (.node .black f pv psib))
                (h + 1) H hdep2 hbalgp hokgp (rootOK_of_out hggc) rfl hG.1 hG.2
            refine ⟨t₂, ?_, ht1, ht2, ht3, ?_⟩
            · rw [RedBlackTree.rebalance]
              exact hreb
            · rw [hino]
              simp [Path.ctxL, Path.ctxR, inorder]
    | inR pc psib pv pp =>
      cases pc with
      | black => exact reb_black_inR hbal hok hro hfrr hfbh
      | red =>
        obtain ⟨hpsibRR, hokpp, hred⟩ := pathOkRR_inR_iff.mp hok
        obtain ⟨hpsibTop, hppc⟩ := hred rfl
        obtain ⟨hbpsib, hbalpp₀⟩ := pathBal_inR_iff.mp hbal
        have hbalpp : pp.pathBal h = some H := by simpa [Colour.bh] using hbalpp₀
        cases pp with
        | root =>
          rcases hro with hcon | hp
          · cases hcon
          · have hcon2 := hp Colour.red
            simp [Path.outColour] at hcon2
        | inL gc gv gsib gp =>
          have hgcb : gc = .black := hppc
          subst hgcb
          obtain ⟨hgsibRR, hokgp, -⟩ := pathOkRR_inL_iff.mp hokpp
          obtain ⟨hbgsib, hbalgp₀⟩ := pathBal_inL_iff.mp hbalpp
          have hbalgp : gp.pathBal (h + 1) = some H := by
            simpa [Colour.bh] using hbalgp₀
          have hggc : gp.outColour Colour.black = .black := by
            rcases hro with hcon | hp
            · cases hcon
            · exact hp Colour.red
          cases hgs : topColour gsib with
          | black =>
            exact reb_rda_RL hfred hfrr hfbh hpsibTop hpsibRR hbpsib hgs hgsibRR hbgsib
              hbalgp hokgp hggc
          | red =>
            obtain ⟨gl, gw, gr, rfl⟩ := red_shape hgs
            obtain ⟨hgtops, hglrr, hgrrr⟩ := noRedRed_node_iff.mp hgsibRR
            obtain ⟨h₀, hbgl, hbgr, hh₀⟩ := blackHeight?_node_iff.mp hbgsib
            have hh : h₀ = h := by simpa [Colour.bh] using hh₀.symm
            rw [hh] at hbgl hbgr
            have hP := black_node_inv (v := pv) hbpsib hfbh hpsibRR hfrr
            have hO := black_node_inv (v := gw) hbgl hbgr hglrr hgrrr
            have hG := red_node_inv (v := gv) hP.2 hO.2 hP.1 hO.1 rfl rfl
            have hdep2 : gp.depth ≤ n := by
              simp [Path.depth] at hdep
              omega
            obtain ⟨t₂, hreb, ht1, ht2, ht3, hino⟩ :=
              ih gp (.node .red (.node .black psib pv f) gv (.node .black gl gw gr))
                (h + 1) H hdep2 hbalgp hokgp (rootOK_of_out hggc) rfl hG.1 hG.2
            refine ⟨t₂, ?_, ht1, ht2, ht3, ?_⟩
            · rw [RedBlackTree.rebalance]
              exact hreb
            · rw [hino]
              simp [Path.ctxL, Path.ctxR, inorder]
        | inR gc gsib gv gp =>
          have hgcb : gc = .black := hppc
          subst hgcb
          obtain ⟨hgsibRR, hokgp, -⟩ := pathOkRR_inR_iff.mp hokpp
          obtain ⟨hbgsib, hbalgp₀⟩ := pathBal_inR_iff.mp hbalpp
          have hbalgp : gp.pathBal (h + 1) = some H := by
            simpa [Colour.bh] using hbalgp₀
          have hggc : gp.outColour Colour.black = .black := by
            rcases hro with hcon | hp
            · cases hcon
            · exact hp Colour.red
          cases hgs : topColour gsib with
          | black =>
            exact reb_rda_RR hfrr hfbh hpsibTop hpsibRR hbpsib hgs hgsibRR hbgsib
              hbalgp hokgp hggc
          | red =>
            obtain ⟨gl, gw, gr, rfl⟩ := red_shape hgs
            obtain ⟨hgtops, hglrr, hgrrr⟩ := noRedRed_node_iff.mp hgsibRR
            obtain ⟨h₀, hbgl, hbgr, hh₀⟩ := blackHeight?_node_iff.mp hbgsib
            have hh : h₀ = h := by simpa [Colour.bh] using hh₀.symm
            rw [hh] at hbgl hbgr
            have hP := black_node_inv (v := pv) hbpsib hfbh hpsibRR hfrr
            have hO := black_node_inv (v := gw) hbgl hbgr hglrr hgrrr
            have hG := red_node_inv (v := gv) hO.2 hP.2 hO.1 hP.1 rfl rfl
            have hdep2 : gp.depth ≤ n := by
              simp [Path.depth] at hdep
              omega
            obtain ⟨t₂, hreb, ht1, ht2, ht3, hino⟩ :=
              ih gp (.node .red (.node .black gl gw gr) gv (.node .black psib pv f))
                (h + 1) H hdep2 hbalgp hokgp (rootOK_of_out hggc) rfl hG.1 hG.2
            refine ⟨t₂, ?_, ht1, ht2, ht3, ?_⟩
            · rw [RedBlackTree.rebalance]
              exact hreb
            · rw [hino]
              simp [Path.ctxL, Path.ctxR, inorder]

end TreeExplorer

/-! ## Structural insertion: order and permutation lemmas -/

namespace TreeExplorer

open RBTree AbstractTree

theorem allLtB_structuralInsert {x b : Int} {c₀ : Colour} :
    ∀ {t : RBTree}, allLtB t b = true → x < b →
    allLtB (structuralInsert (.node c₀ .nil x .nil) x t) b = true := by
  intro t
  induction t with
  | nil =>
    intro _ hx
    simp [structuralInsert, allLtB, hx]
  | node c l v r ihl ihr =>
    intro ht hx
    simp only [allLtB, Bool.and_eq_true, decide_eq_true_eq] at ht
    obtain ⟨⟨hv, hl⟩, hr⟩ := ht
    by_cases h₁ : x < v
    · simp only [structuralInsert, if_pos h₁]
      simp [allLtB, hv, hl, hr, ihl hl hx]
    · by_cases h₂ : v < x
      · simp only [structuralInsert, if_neg h₁, if_pos h₂]
        simp [allLtB, hv, hl, hr, ihr hr hx]
      · simp only [structuralInsert, if_neg h₁, if_neg h₂]
        simp [allLtB, hv, hl, hr]

theorem allGtB_structuralInsert {x b : Int} {c₀ : Colour} :
    ∀ {t : RBTree}, allGtB t b = true → b < x →
    allGtB (structuralInsert (.node c₀ .nil x .nil) x t) b = true := by
  intro t
  induction t with
  | nil =>
    intro _ hx
    simp [structuralInsert, allGtB, hx]
  | node c l v r ihl ihr =>
    intro ht hx
    simp only [allGtB, Bool.and_eq_true, decide_eq_true_eq] at ht
    obtain ⟨⟨hv, hl⟩, hr⟩ := ht
    by_cases h₁ : x < v
    · simp only [structuralInsert, if_pos h₁]
      simp [allGtB, hv, hl, hr, ihl hl hx]
    · by_cases h₂ : v < x
      · simp only [structuralInsert, if_neg h₁, if_pos h₂]
        simp [allGtB, hv, hl, hr, ihr hr hx]
      · simp only [structuralInsert, if_neg h₁, if_neg h₂]
        simp [allGtB, hv, hl, hr]

theorem isBST_structuralInsert {x : Int} {c₀ : Colour} :
    ∀ {t : RBTree}, isBST t = true →
    isBST (structuralInsert (.node c₀ .nil x .nil) x t) = true := by
  intro t
  induction t with
  | nil =>
    intro _
    simp [structuralInsert, isBST, allLtB, allGtB]
  | node c l v r ihl ihr =>
    intro ht
    simp only [isBST, Bool.and_eq_true] at ht
    obtain ⟨⟨⟨hlt, hgt⟩, hl⟩, hr⟩ := ht
    by_cases h₁ : x < v
    · simp only [structuralInsert, if_pos h₁]
      simp [isBST, allLtB_structuralInsert hlt h₁, hgt, ihl hl, hr]
    · by_cases h₂ : v < x
      · simp only [structuralInsert, if_neg h₁, if_pos h₂]
        simp [isBST, allGtB_structuralInsert hgt h₂, hlt, hl, ihr hr]
      · simp only [structuralInsert, if_neg h₁, if_neg h₂]
        simp [isBST, hlt, hgt, hl, hr]

theorem inorder_structuralInsert_perm {x : Int} {c₀ : Colour} :
    ∀ {t : RBTree}, memB x t = false →
    (inorder (structuralInsert (.node c₀ .nil x .nil) x t)).Perm (x :: inorder t) := by
  intro t
  induction t with
  | nil =>
    intro _
    simp [structuralInsert, inorder]
  | node c l v r ihl ihr =>
    intro h
    simp only [memB, Bool.or_eq_false_iff, beq_eq_false_iff_ne] at h
    obtain ⟨⟨hv, hl⟩, hr⟩ := h
    by_cases h₁ : x < v
    · simp only [structuralInsert, if_pos h₁, inorder]
      exact (ihl hl).append_right (v :: inorder r)
    · by_cases h₂ : v < x
      · simp only [structuralInsert, if_neg h₁, if_pos h₂, inorder]
        have step1 : (inorder l ++ v :: inorder (structuralInsert (.node c₀ .nil x .nil) x r)).Perm
            (inorder l ++ v :: x :: inorder r) :=
          List.Perm.append_left (inorder l) ((ihr hr).cons v)
        have step2 : (inorder l ++ v :: x :: inorder r).Perm (x :: (inorder l ++ v :: inorder r)) := by
          have hp : ((inorder l ++ [v]) ++ x :: inorder r).Perm
              (x :: ((inorder l ++ [v]) ++ inorder r)) := List.perm_middle
          simpa using hp
        exact step1.trans step2
      · exact absurd (by omega : x = v) hv

end TreeExplorer

/-! ## C1: red-black insertion restores the invariants -/

namespace TreeExplorer

open RBTree AbstractTree

theorem rb_addItem_ok {t : RBTree} {x : Int}
    (hb : topColour t = .black) (hrr : noRedRed t = true)
    (hbal : (blackHeight? t).isSome) (hmem : memB x t = false) :
    ∃ t₂, RedBlackTree.addItem x t = some t₂ ∧ topColour t₂ = .black ∧
      noRedRed t₂ = true ∧ (blackHeight? t₂).isSome ∧
      inorder t₂ = inorder (structuralInsert (RedBlackTree.newRedNode x) x t) := by
  obtain ⟨H, hH⟩ := Option.isSome_iff_exists.mp hbal
  obtain ⟨p₂, hp₂⟩ := Option.isSome_iff_exists.mp (addRecursive_isSome (x := x) Path.root hmem)
  have hbal2 : p₂.pathBal 0 = some H := addRecursive_pathBal hp₂ hH rfl
  have hok2 : p₂.pathOkRR = true :=
    addRecursive_pathOkRR hp₂ hrr rfl (fun hcon => by cases hcon)
  have hro2 : p₂.RootOK := addRecursive_rootOK hp₂ (Or.inl rfl) (fun _ => Or.inr hb)
  obtain ⟨t₂, hreb, h1, h2, h3, hino⟩ :=
    rebalance_ok p₂.depth p₂ (RedBlackTree.newRedNode x) 0 H le_rfl hbal2 hok2 hro2 rfl rfl rfl
  refine ⟨t₂, ?_, h1, h2, h3, ?_⟩
  · rw [RedBlackTree.addItem, hp₂]
    exact hreb
  · rw [hino, ← inorder_plug, addRecursive_plug hp₂]
    rfl

/-- **C1**: for every `RedBlackTree` satisfying the red-black invariants
and every value not present in it, `addItem` (structural insertion of a
red node followed by the insertion fixup) completes and the resulting
tree again satisfies all three invariants: black root, no red node with
a red child, and equal black-count on every root-to-sentinel path. -/
theorem rb_insert_invariants (t : RBTree) (x : Int)
    (ht : isRedBlack t) (hmem : memB x t = false) :
    ∃ t₂, RedBlackTree.addItem x t = some t₂ ∧ isRedBlack t₂ := by
  obtain ⟨hb, hrr, hbal⟩ := ht
  obtain ⟨t₂, hadd, h1, h2, h3, -⟩ := rb_addItem_ok hb hrr hbal hmem
  exact ⟨t₂, hadd, h1, h2, h3⟩

/-- Witness for **C1**: inserting `4` into the red-black tree
`2(black){1(red), 3(red)}`. -/
theorem rb_insert_invariants_witness :
    isRedBlack (.node .black (.node .red .nil 1 .nil) 2 (.node .red .nil 3 .nil)) ∧
    memB 4 (.node .black (.node .red .nil 1 .nil) 2 (.node .red .nil 3 .nil)) = false ∧
    ∃ t₂, RedBlackTree.addItem 4
        (.node .black (.node .red .nil 1 .nil) 2 (.node .red .nil 3 .nil)) = some t₂ ∧
      isRedBlack t₂ :=
  ⟨by constructor <;> first | rfl | constructor <;> rfl, by decide,
   rb_insert_invariants (.node .black (.node .red .nil 1 .nil) 2 (.node .red .nil 3 .nil)) 4
     (by constructor <;> first | rfl | constructor <;> rfl) (by decide)⟩

end TreeExplorer

/-! ## C2: in-order traversal after distinct insertions is sorted -/

namespace TreeExplorer

open RBTree AbstractTree

theorem yields_navigateInOrder : ∀ (t : RBTree),
    yields (navigateInOrder t) = inorder t := by
  intro t
  induction t with
  | nil => rfl
  | node c l v r ihl ihr =>
    cases l <;> cases r <;>
      simp_all [navigateInOrder, yields, inorder, List.filterMap_append]

theorem yields_append (a b : List TraverseStep) : yields (a ++ b) = yields a ++ yields b :=
  List.filterMap_append a b _

theorem yields_traverseInOrder (t : RBTree) :
    yields (traverseInOrder t) = inorder t := by
  cases t with
  | nil => rfl
  | node c l v r =>
    rw [show traverseInOrder (.node c l v r)
        = navigateInOrder (.node c l v r) ++ [.explain "Traversal complete" true] from rfl]
    rw [yields_append, yields_navigateInOrder]
    simp [yields]

theorem insertTree_eq {x : Int} {t : RBTree} (hmem : memB x t = false) :
    NaiveTree.insertTree x t = structuralInsert (.node .black .nil x .nil) x t := by
  obtain ⟨p₂, hp₂⟩ := Option.isSome_iff_exists.mp (addRecursive_isSome (x := x) Path.root hmem)
  rw [NaiveTree.insertTree, hp₂]
  show p₂.plug (.node .black .nil x .nil) = _
  rw [addRecursive_plug hp₂]
  rfl

theorem buildNaive_ok : ∀ (xs : List Int) (t : RBTree),
    isBST t = true → xs.Nodup → (∀ x ∈ xs, memB x t = false) →
    isBST (buildNaive t xs) = true ∧ (inorder (buildNaive t xs)).Perm (inorder t ++ xs) := by
  intro xs
  induction xs with
  | nil =>
    intro t hbst _ _
    exact ⟨hbst, by simp [buildNaive]⟩
  | cons x xs ih =>
    intro t hbst hnd hmem
    have hmx : memB x t = false := hmem x (by simp)
    have heq : buildNaive t (x :: xs) = buildNaive (NaiveTree.insertTree x t) xs := rfl
    rw [heq, insertTree_eq hmx]
    have hbst2 : isBST (structuralInsert (.node .black .nil x .nil) x t) = true :=
      isBST_structuralInsert hbst
    have hperm : (inorder (structuralInsert (.node .black .nil x .nil) x t)).Perm
        (x :: inorder t) := inorder_structuralInsert_perm hmx
    have hmem2 : ∀ y ∈ xs, memB y (structuralInsert (.node .black .nil x .nil) x t) = false := by
      intro y hy
      rw [← Bool.not_eq_true]
      intro hcon
      have hmemy : y ∈ x :: inorder t := hperm.mem_iff.mp (memB_iff.mp hcon)
      rcases List.mem_cons.mp hmemy with hcase | hcase
      · exact (List.nodup_cons.mp hnd).1 (hcase ▸ hy)
      · have := hmem y (by simp [hy])
        rw [← memB_iff] at hcase
        rw [hcase] at this
        cases this
    obtain ⟨hbst3, hperm3⟩ := ih _ hbst2 (List.nodup_cons.mp hnd).2 hmem2
    refine ⟨hbst3, hperm3.trans ?_⟩
    have hstep := hperm.append_right xs
    refine hstep.trans ?_
    exact List.perm_middle.symm

theorem buildRB_ok : ∀ (xs : List Int) (t : RBTree),
    isRedBlack t → isBST t = true → xs.Nodup → (∀ x ∈ xs, memB x t = false) →
    ∃ t₂, buildRB t xs = some t₂ ∧ isRedBlack t₂ ∧ isBST t₂ = true ∧
      (inorder t₂).Perm (inorder t ++ xs) := by
  intro xs
  induction xs with
  | nil =>
    intro t hrb hbst _ _
    exact ⟨t, rfl, hrb, hbst, by simp⟩
  | cons x xs ih =>
    intro t hrb hbst hnd hmem
    obtain ⟨hb, hrr, hbal⟩ := hrb
    have hmx : memB x t = false := hmem x (by simp)
    obtain ⟨t₁, hadd, h1, h2, h3, hino⟩ := rb_addItem_ok hb hrr hbal hmx
    have hperm : (inorder t₁).Perm (x :: inorder t) := by
      rw [hino]
      exact inorder_structuralInsert_perm hmx
    have hbst1 : isBST t₁ = true := by
      rw [← sorted_inorder_iff_isBST, hino, sorted_inorder_iff_isBST]
      exact isBST_structuralInsert hbst
    have hmem1 : ∀ y ∈ xs, memB y t₁ = false := by
      intro y hy
      rw [← Bool.not_eq_true]
      intro hcon
      have hmemy : y ∈ x :: inorder t := hperm.mem_iff.mp (memB_iff.mp hcon)
      rcases List.mem_cons.mp hmemy with hcase | hcase
      · exact (List.nodup_cons.mp hnd).1 (hcase ▸ hy)
      · have := hmem y (by simp [hy])
        rw [← memB_iff] at hcase
        rw [hcase] at this
        cases this
    obtain ⟨t₂, hbuild, hrb2, hbst2, hperm2⟩ := ih t₁ ⟨h1, h2, h3⟩ hbst1
      (List.nodup_cons.mp hnd).2 hmem1
    refine ⟨t₂, ?_, hrb2, hbst2, ?_⟩
    · rw [show buildRB t (x :: xs)
          = (match RedBlackTree.addItem x t with
             | none => none
             | some t₃ => buildRB t₃ xs) from rfl, hadd]
      exact hbuild
    · refine hperm2.trans ?_
      have hstep := hperm.append_right xs
      refine hstep.trans ?_
      exact List.perm_middle.symm

/-- **C2**: for every sequence of `N ≥ 0` pairwise-distinct integers
inserted into an initially empty tree — by the naive variant or by the
red-black variant — the value sequence yielded by an in-order traversal
performed afterwards is exactly those `N` values in strictly ascending
order. -/
theorem insert_inorder_sorted (xs : List Int) (hnd : xs.Nodup) :
    (yields (traverseInOrder (buildNaive .nil xs))).Perm xs ∧
    (yields (traverseInOrder (buildNaive .nil xs))).Sorted (· < ·) ∧
    ∃ t, buildRB .nil xs = some t ∧
      (yields (traverseInOrder t)).Perm xs ∧
      (yields (traverseInOrder t)).Sorted (· < ·) := by
  obtain ⟨hbstN, hpermN⟩ := buildNaive_ok xs .nil rfl hnd (by intro x _; rfl)
  obtain ⟨t, hbuild, hrb, hbst, hperm⟩ :=
    buildRB_ok xs .nil ⟨rfl, rfl, rfl⟩ rfl hnd (by intro x _; rfl)
  refine ⟨?_, ?_, t, hbuild, ?_, ?_⟩
  · rw [yields_traverseInOrder]
    simpa using hpermN
  · rw [yields_traverseInOrder]
    exact sorted_inorder_iff_isBST.mpr hbstN
  · rw [yields_traverseInOrder]
    simpa using hperm
  · rw [yields_traverseInOrder]
    exact sorted_inorder_iff_isBST.mpr hbst

/-- Witness for **C2** at the sequence `[5, 3, 8]`. -/
theorem insert_inorder_sorted_witness :
    (yields (traverseInOrder (buildNaive .nil [5, 3, 8]))).Perm [5, 3, 8] ∧
    (yields (traverseInOrder (buildNaive .nil [5, 3, 8]))).Sorted (· < ·) ∧
    ∃ t, buildRB .nil [5, 3, 8] = some t ∧
      (yields (traverseInOrder t)).Perm [5, 3, 8] ∧
      (yields (traverseInOrder t)).Sorted (· < ·) :=
  insert_inorder_sorted [5, 3, 8] (by decide)

end TreeExplorer

/-! ## C6: naive deletion and size tracking -/

namespace TreeExplorer

open RBTree AbstractTree

theorem memB_left_of_bst {x v : Int} {c : Colour} {l r : RBTree}
    (hbst : isBST (.node c l v r) = true) (hmem : memB x (.node c l v r) = true)
    (hlt : x < v) : memB x l = true := by
  simp only [isBST, Bool.and_eq_true] at hbst
  obtain ⟨⟨⟨hltb, hgtb⟩, hbl⟩, hbr⟩ := hbst
  simp only [memB, Bool.or_eq_true, beq_iff_eq] at hmem
  rcases hmem with (hx | hx) | hx
  · omega
  · exact hx
  · have := allGtB_iff.mp hgtb x (memB_iff.mp hx)
    omega

theorem memB_right_of_bst {x v : Int} {c : Colour} {l r : RBTree}
    (hbst : isBST (.node c l v r) = true) (hmem : memB x (.node c l v r) = true)
    (hgt : v < x) : memB x r = true := by
  simp only [isBST, Bool.and_eq_true] at hbst
  obtain ⟨⟨⟨hltb, hgtb⟩, hbl⟩, hbr⟩ := hbst
  simp only [memB, Bool.or_eq_true, beq_iff_eq] at hmem
  rcases hmem with (hx | hx) | hx
  · omega
  · have := allLtB_iff.mp hltb x (memB_iff.mp hx)
    omega
  · exact hx

theorem not_mem_left_of_bst {v : Int} {c : Colour} {l r : RBTree}
    (hbst : isBST (.node c l v r) = true) : v ∉ inorder l := by
  simp only [isBST, Bool.and_eq_true] at hbst
  intro hcon
  have := allLtB_iff.mp hbst.1.1.1 v hcon
  omega

theorem removeRecursive_inorder : ∀ {t : RBTree} {x : Int},
    isBST t = true → memB x t = true →
    inorder (NaiveTree.removeRecursive x t) = (inorder t).erase x := by
  intro t
  induction t with
  | nil =>
    intro x _ hmem
    cases hmem
  | node c l v r ihl ihr =>
    intro x hbst hmem
    have hbst₀ := hbst
    simp only [isBST, Bool.and_eq_true] at hbst₀
    obtain ⟨⟨⟨hltb, hgtb⟩, hbl⟩, hbr⟩ := hbst₀
    by_cases h₁ : x < v
    · have hml := memB_left_of_bst hbst hmem h₁
      have hxin : x ∈ inorder l := memB_iff.mp hml
      rw [NaiveTree.removeRecursive.eq_def]
      simp only [if_pos h₁]
      rw [show inorder (.node c (NaiveTree.removeRecursive x l) v r)
          = inorder (NaiveTree.removeRecursive x l) ++ v :: inorder r from rfl]
      rw [ihl hbl hml,
        show inorder (.node c l v r) = inorder l ++ v :: inorder r from rfl,
        List.erase_append_left _ hxin]
    · by_cases h₂ : v < x
      · have hmr := memB_right_of_bst hbst hmem h₂
        have hxnotl : x ∉ inorder l := by
          intro hcon
          have := allLtB_iff.mp hltb x hcon
          omega
        rw [NaiveTree.removeRecursive.eq_def]
        simp only [if_neg h₁, if_pos h₂]
        rw [show inorder (.node c l v (NaiveTree.removeRecursive x r))
            = inorder l ++ v :: inorder (NaiveTree.removeRecursive x r) from rfl]
        rw [ihr hbr hmr,
          show inorder (.node c l v r) = inorder l ++ v :: inorder r from rfl,
          List.erase_append_right _ hxnotl,
          List.erase_cons_tail]
        simp only [beq_iff_eq]
        omega
      · have hxv : x = v := by omega
        subst hxv
        have hxnotl : x ∉ inorder l := not_mem_left_of_bst hbst
        rw [show inorder (.node c l x r) = inorder l ++ x :: inorder r from rfl,
          List.erase_append_right _ hxnotl, List.erase_cons_head]
        match l, r, hbl, hbr, hxnotl with
        | .nil, .nil, _, _, _ =>
          rw [NaiveTree.removeRecursive.eq_def]
          simp [if_neg h₁, if_neg h₂, inorder]
        | .nil, .node rc rl rv rr, _, _, _ =>
          rw [NaiveTree.removeRecursive.eq_def]
          simp [if_neg h₁, if_neg h₂, inorder]
        | .node lc ll lv lr, .nil, _, _, _ =>
          rw [NaiveTree.removeRecursive.eq_def]
          simp [if_neg h₁, if_neg h₂, inorder]
        | .node lc ll lv lr, .node rc rl rv rr, hbl, hbr, hxnotl =>
          obtain ⟨mc, mv, mr, rest, hmc, -, hino⟩ :=
            minChild_spec (t := .node rc rl rv rr) (by simp)
          have hmvmem : memB mv (.node rc rl rv rr) = true :=
            minChild_mem (by simp) hmc
          rw [NaiveTree.removeRecursive.eq_def]
          simp only [if_neg h₁, if_neg h₂]
          rw [hmc]
          rw [show inorder (.node c (.node lc ll lv lr) mv
                (NaiveTree.removeRecursive mv (.node rc rl rv rr)))
              = inorder (.node lc ll lv lr) ++ mv ::
                inorder (NaiveTree.removeRecursive mv (.node rc rl rv rr)) from rfl]
          rw [ihr hbr hmvmem, hino, List.erase_cons_head]

end TreeExplorer

namespace TreeExplorer

open RBTree AbstractTree

theorem removeRecursive_isBST {t : RBTree} {x : Int}
    (hbst : isBST t = true) (hmem : memB x t = true) :
    isBST (NaiveTree.removeRecursive x t) = true := by
  rw [← sorted_inorder_iff_isBST, removeRecursive_inorder hbst hmem]
  exact List.Pairwise.sublist (List.erase_sublist x (inorder t))
    (sorted_inorder_iff_isBST.mpr hbst)

theorem runOps_size_ok : ∀ (ops : List TreeOp) (t : RBTree),
    isBST t = true → NaiveTree.ValidOps t ops →
    isBST (NaiveTree.runOps ⟨t, ((inorder t).length : Int)⟩ ops).root = true ∧
    (NaiveTree.runOps ⟨t, ((inorder t).length : Int)⟩ ops).size
      = (((inorder (NaiveTree.runOps ⟨t, ((inorder t).length : Int)⟩ ops).root).length : Nat) : Int) := by
  intro ops
  induction ops with
  | nil =>
    intro t hbst _
    exact ⟨hbst, rfl⟩
  | cons op ops ih =>
    intro t hbst hvalid
    cases op with
    | ins x =>
      obtain ⟨hmx, hvalid2⟩ := hvalid
      have hstep : NaiveTree.runOps ⟨t, ((inorder t).length : Int)⟩ (.ins x :: ops)
          = NaiveTree.runOps ⟨NaiveTree.insertTree x t, ((inorder t).length : Int) + 1⟩ ops := rfl
      have hbst2 : isBST (NaiveTree.insertTree x t) = true := by
        rw [insertTree_eq hmx]
        exact isBST_structuralInsert hbst
      have hlen : ((inorder (NaiveTree.insertTree x t)).length : Int)
          = ((inorder t).length : Int) + 1 := by
        rw [insertTree_eq hmx]
        have hpm : (inorder (structuralInsert (.node .black .nil x .nil) x t)).Perm
            (x :: inorder t) := inorder_structuralInsert_perm hmx
        have := hpm.length_eq
        simp only [List.length_cons] at this
        omega
      rw [hstep, ← hlen]
      exact ih _ hbst2 hvalid2
    | del x =>
      obtain ⟨hmx, hvalid2⟩ := hvalid
      have hstep : NaiveTree.runOps ⟨t, ((inorder t).length : Int)⟩ (.del x :: ops)
          = NaiveTree.runOps ⟨NaiveTree.removeRecursive x t, ((inorder t).length : Int) - 1⟩ ops := rfl
      have hbst2 : isBST (NaiveTree.removeRecursive x t) = true :=
        removeRecursive_isBST hbst hmx
      have hlen : ((inorder (NaiveTree.removeRecursive x t)).length : Int)
          = ((inorder t).length : Int) - 1 := by
        rw [removeRecursive_inorder hbst hmx,
          List.length_erase_of_mem (memB_iff.mp hmx)]
        have hpos : 0 < (inorder t).length := List.length_pos.mpr
          (List.ne_nil_of_mem (memB_iff.mp hmx))
        omega
      rw [hstep, ← hlen]
      exact ih _ hbst2 hvalid2

/-- **C6, counterexample** is `size_tracking_counterexample` above.
**C6, amended**: for every sequence of *valid* operations on a
`NaiveTree` store starting from an empty tree — each insertion of a
value not present, each removal of a value present — the `size` field
afterwards equals the number of distinct values present (the count of
non-sentinel nodes, which are pairwise distinct); and every insertion
increments `size` by exactly one while every removal decrements it by
exactly one. -/
theorem size_tracking (ops : List TreeOp) (hvalid : NaiveTree.ValidOps .nil ops) :
    ((NaiveTree.runOps ⟨.nil, 0⟩ ops).size
        = (((inorder (NaiveTree.runOps ⟨.nil, 0⟩ ops).root).length : Nat) : Int) ∧
      (inorder (NaiveTree.runOps ⟨.nil, 0⟩ ops).root).Nodup) ∧
    ∀ (x : Int) (st : TreeState),
      (NaiveTree.addItem x st).size = st.size + 1 ∧
      (NaiveTree.removeItem x st).size = st.size - 1 := by
  have h := runOps_size_ok ops .nil rfl hvalid
  refine ⟨⟨h.2, ?_⟩, fun x st => ⟨rfl, rfl⟩⟩
  exact (sorted_inorder_iff_isBST.mpr h.1).nodup

/-- Witness for **C6 (amended)** at the operation sequence
`[ins 2, ins 1, del 2, ins 3]`. -/
theorem size_tracking_witness :
    ((NaiveTree.runOps ⟨.nil, 0⟩ [.ins 2, .ins 1, .del 2, .ins 3]).size
        = (((inorder (NaiveTree.runOps ⟨.nil, 0⟩ [.ins 2, .ins 1, .del 2, .ins 3]).root).length : Nat) : Int) ∧
      (inorder (NaiveTree.runOps ⟨.nil, 0⟩ [.ins 2, .ins 1, .del 2, .ins 3]).root).Nodup) ∧
    ∀ (x : Int) (st : TreeState),
      (NaiveTree.addItem x st).size = st.size + 1 ∧
      (NaiveTree.removeItem x st).size = st.size - 1 :=
  size_tracking [.ins 2, .ins 1, .del 2, .ins 3]
    (by refine ⟨by decide, by decide, by decide, by decide, trivial⟩)

end TreeExplorer
